import Mathlib

/-!
Verification development for the SuperTravelAgent orchestration core.

Python strings are modelled as `List Char` (`Str`).  Each definition is a
shallow embedding of the correspondingly named Python function from the
repository sources (`agents/agent/agent_base.py`, `agents/agent/agent_controller.py`,
`agents/tool/tool_manager.py`, `agents/agent/observation_agent/observation_agent.py`,
`agents/agent/planning_agent/planning_agent.py`).
-/

namespace STA

/-- Python strings, modelled as lists of characters. -/
abbrev Str := List Char

/-- The whitespace characters recognised by Python `str.strip()` (ASCII subset;
the sources only ever strip ASCII whitespace). -/
def isPySpace (c : Char) : Bool :=
  c = ' ' || c = '\t' || c = '\n' || c = '\x0d' || c = '\x0b' || c = '\x0c'

/-- Remove trailing Python whitespace, as the right half of `str.strip()`. -/
def stripRight (s : Str) : Str :=
  (s.reverse.dropWhile isPySpace).reverse

/-- Python `str.strip()`: drop leading and trailing whitespace. -/
def pyStrip (s : Str) : Str :=
  stripRight (s.dropWhile isPySpace)

/-- Python `str.lower()` restricted to ASCII letters (the sources compare
field bodies against ASCII keywords only). -/
def pyLower (s : Str) : Str :=
  s.map (fun c => if 'A' ≤ c && c ≤ 'Z' then Char.ofNat (c.toNat + 32) else c)

/-- Test that `t` occurs in `s` starting at index `i` (Python substring occurrence). -/
def occursAt (t s : Str) (i : Nat) : Bool :=
  t.isPrefixOf (s.drop i)

/-- Python `str.rfind`: the largest index at which `t` occurs in `s`
(`none` models the return value `-1`). -/
def pyRfind (t s : Str) : Option Nat :=
  (((List.range (s.length + 1)).filter (fun i => occursAt t s i)).getLast?)

/-- Python `str.find`: the smallest index at which `t` occurs in `s`. -/
def pyFind (t s : Str) : Option Nat :=
  ((List.range (s.length + 1)).filter (fun i => occursAt t s i)).head?

/-- The part of `s` strictly after the first occurrence of `pat`
(`none` when `pat` does not occur).  Models `s.split(pat)[1:]`'s start. -/
def afterFirst (pat s : Str) : Option Str :=
  (pyFind pat s).map (fun i => s.drop (i + pat.length))

/-- The part of `s` strictly before the first occurrence of `pat`
(`s` itself when `pat` does not occur).  Models `s.split(pat)[0]`. -/
def upToFirst (pat s : Str) : Str :=
  match pyFind pat s with
  | none => s
  | some i => s.take i

/-- Python `s.split(pat)[1]`: the segment between the first and the second
occurrence of `pat` (up to the end when `pat` occurs only once); `none`
models the `IndexError` raised when `pat` does not occur at all. -/
def splitSecond (pat s : Str) : Option Str :=
  (afterFirst pat s).map (upToFirst pat)

/-- Python `s.replace(pat, repl)` for nonempty `pat`: replace every
(leftmost, non-overlapping) occurrence.  Fuel is the length of `s`. -/
def replaceAllFuel (pat repl : Str) : Nat → Str → Str
  | 0, s => s
  | _ + 1, [] => []
  | fuel + 1, s =>
    if pat ≠ [] ∧ pat.isPrefixOf s then
      repl ++ replaceAllFuel pat repl fuel (s.drop pat.length)
    else
      match s with
      | [] => []
      | c :: cs => c :: replaceAllFuel pat repl fuel cs

/-- Python `s.replace(pat, repl)`. -/
def replaceAll (pat repl s : Str) : Str :=
  replaceAllFuel pat repl s.length s

/-! ## The incremental tag-stream classifier

Shallow embedding of `AgentBase._judge_delta_content_type`
(`agents/agent/agent_base.py`, lines 844-896). -/

/-- An opening delimiter `<tag>`. -/
def mkOpenTag (name : Str) : Str := '<' :: (name ++ ['>'])

/-- A closing delimiter `</tag>`. -/
def mkCloseTag (name : Str) : Str := '<' :: '/' :: (name ++ ['>'])

/-- All nonempty prefixes `tag[:i+1]` of a delimiter string, in order of
increasing length; models the inner loop building `end_tag_process_list`. -/
def nonemptyPfxs (tag : Str) : List Str :=
  (List.range tag.length).map (fun i => tag.take (i + 1))

/-- The scan for the most recent delimiter occurrence: iterate over the
delimiter list in order, keeping the candidate with the strictly largest
`rfind` index (ties keep the earlier delimiter, as in the source). -/
def findLastTag (tags : List Str) (s : Str) : Option (Str × Nat) :=
  tags.foldl
    (fun acc t =>
      match pyRfind t s with
      | none => acc
      | some i =>
        match acc with
        | none => some (t, i)
        | some (_, i0) => if i > i0 then some (t, i) else acc)
    none

/-- Python `tag.replace('<', '').replace('>', '')`. -/
def stripAngles (t : Str) : Str :=
  t.filter (fun c => !(c = '<' || c = '>'))

/-- Model of `AgentBase._judge_delta_content_type(delta_content, all_tokens_str, tag_type)`.
Classifies the newest delta against the accumulated stream text; returns the
string `"tag"`, the string `"unknown"`, or a field name. -/
def judge_delta_content_type (delta_content all_tokens_str : Str) (tag_type : List Str) : Str :=
  let startTag := tag_type.map mkOpenTag
  let endTag := tag_type.map mkCloseTag
  let endTagProcessList := endTag.flatMap nonemptyPfxs
  let s := pyStrip (all_tokens_str ++ delta_content)
  match findLastTag (startTag ++ endTag) s with
  | none => "tag".toList
  | some (lastTag, lastTagIndex) =>
    if lastTag ∈ startTag then
      if lastTagIndex + lastTag.length = s.length then
        "tag".toList
      else if endTagProcessList.any (fun p => p.isSuffixOf s) then
        "unknown".toList
      else
        stripAngles lastTag
    else
      "tag".toList

/-- Feed `text` to the classifier one character at a time, each character
classified against the accumulated preceding text `u`; returns the
per-character classifications in order. -/
def classifyCharsFrom (tag_type : List Str) : Str → Str → List (Char × Str)
  | _, [] => []
  | u, c :: cs =>
    (c, judge_delta_content_type [c] u tag_type) :: classifyCharsFrom tag_type (u ++ [c]) cs

/-- The characters of `text` classified as field `field` when the whole text
is streamed one character at a time from an empty accumulator. -/
def collectField (tag_type : List Str) (text field : Str) : Str :=
  (classifyCharsFrom tag_type [] text).filterMap
    (fun p => if p.2 = field then some p.1 else none)

/-! ## The message transcript and its merge

Shallow embedding of `AgentBase._merge_messages`
(`agents/agent/agent_base.py`, lines 730-778).  A message dict is modelled
as a record; optional dict keys become `Option` fields.  The source assigns
a fresh uuid to any message whose dict lacks a `message_id` key before
merging; the model takes messages whose ids are already assigned. -/

/-- A transcript message (one dict of the Python message list).  `content`,
`show_content`, `type`, `tool_calls` and `tool_call_id` keys may be absent
from a dict, hence `Option`; `tool_calls` is kept opaque as its serialized
text. -/
structure Message where
  message_id : Str
  role : Str
  content : Option Str := none
  show_content : Option Str := none
  type : Option Str := none
  tool_calls : Option Str := none
  tool_call_id : Option Str := none
  deriving Repr, DecidableEq

/-- The in-place update performed when a fragment arrives for an existing
message: `content` and `show_content` are extended by concatenation when the
stored message has them (`if 'content' in existing`), using the fragment's
value or `''` when the fragment lacks the key (`msg_copy.get('content', '')`);
every other field is untouched. -/
def mergeInto (existing m : Message) : Message :=
  { existing with
    content := existing.content.map (fun c => c ++ m.content.getD []),
    show_content := existing.show_content.map (fun c => c ++ m.show_content.getD []) }

/-- Replace the first element with `m`'s id by its `mergeInto` with `m`. -/
def updateFirstById (m : Message) : List Message → List Message
  | [] => []
  | e :: rest =>
    if e.message_id = m.message_id then mergeInto e m :: rest
    else e :: updateFirstById m rest

/-- Replace the last element of `l` whose `message_id` equals `m`'s by
`mergeInto` of it with `m`.  The Python `message_map` holds, for each id,
the most recently stored dict with that id, and mutates it in place. -/
def updateLastById (l : List Message) (m : Message) : List Message :=
  (updateFirstById m l.reverse).reverse

/-- Merging one new message into the accumulated list: concatenate into the
(last-stored) existing message when the id is present, append otherwise. -/
def mergeOne (acc : List Message) (m : Message) : List Message :=
  if acc.any (fun e => e.message_id = m.message_id) then
    updateLastById acc m
  else
    acc ++ [m]

/-- Model of `AgentBase._merge_messages(all_messages, new_messages)`. -/
def merge_messages (all_messages new_messages : List Message) : List Message :=
  new_messages.foldl mergeOne all_messages

/-- The ids of a transcript, in order. -/
def idsOf (l : List Message) : List Str :=
  l.map Message.message_id

/-- Insertion order of first-seen ids: fold keeping only the first
occurrence of each id. -/
def firstSeen (l : List Str) : List Str :=
  l.foldl (fun acc i => if i ∈ acc then acc else acc ++ [i]) []

/-! ## Python values and the `json` module

Untyped Python data as it flows through the dispatcher and the structured
extractors: `None`, booleans, integers, strings, lists and dicts.  Floats
and opaque objects do not occur in the values the modelled code builds and
are not modelled.  `json.dumps` is modelled with its default separators and
`ensure_ascii=False`; the `indent=2` pretty-printing used by the dispatcher
only inserts whitespace and is abstracted to the compact form. -/

/-- An untyped Python value. -/
inductive PyVal where
  | pynone
  | pybool (b : Bool)
  | pyint (n : Int)
  | pystr (s : Str)
  | pylist (xs : List PyVal)
  | pydict (kvs : List (Str × PyVal))

/-- Python truthiness (`if value:`). -/
def pyTruthy : PyVal → Bool
  | .pynone => false
  | .pybool b => b
  | .pyint n => n != 0
  | .pystr s => !s.isEmpty
  | .pylist xs => !xs.isEmpty
  | .pydict kvs => !kvs.isEmpty

/-- Python `d.get(key)` on a dict: `None` when the key is absent. -/
def dictGet (kvs : List (Str × PyVal)) (key : Str) : PyVal :=
  match kvs.find? (fun kv => kv.1 = key) with
  | some kv => kv.2
  | none => .pynone

/-- Python `d.get(key, default)` on a dict. -/
def dictGetD (kvs : List (Str × PyVal)) (key : Str) (dflt : PyVal) : PyVal :=
  match kvs.find? (fun kv => kv.1 = key) with
  | some kv => kv.2
  | none => dflt

/-- Decimal digits of a natural number (fuel-based; `natToStr n` supplies
`n` as fuel, which always suffices). -/
def natDigits : Nat → Nat → Str
  | 0, _ => []
  | fuel + 1, n =>
    if n < 10 then [Char.ofNat (48 + n)]
    else natDigits fuel (n / 10) ++ [Char.ofNat (48 + n % 10)]

/-- Decimal rendering of a natural number. -/
def natToStr (n : Nat) : Str :=
  if n = 0 then ['0'] else natDigits (n + 1) n

/-- Decimal rendering of an integer, as Python `str(int)`. -/
def intToStr (n : Int) : Str :=
  if n < 0 then '-' :: natToStr n.natAbs else natToStr n.natAbs

/-- The left-brace character, kept out of string literals. -/
def lbraceC : Char := Char.ofNat 123

/-- The right-brace character, kept out of string literals. -/
def rbraceC : Char := Char.ofNat 125

/-- JSON string escaping as `json.dumps(..., ensure_ascii=False)`: quote,
backslash and control characters are escaped, everything else is copied. -/
def jsonEscapeChar (c : Char) : Str :=
  if c = '"' then ['\\', '"']
  else if c = '\\' then ['\\', '\\']
  else if c = '\n' then ['\\', 'n']
  else if c = '\t' then ['\\', 't']
  else if c = '\x0d' then ['\\', 'r']
  else if c.toNat < 32 then
    '\\' :: 'u' :: '0' :: '0' ::
      [Char.ofNat (if c.toNat / 16 < 10 then 48 + c.toNat / 16 else 87 + c.toNat / 16),
       Char.ofNat (if c.toNat % 16 < 10 then 48 + c.toNat % 16 else 87 + c.toNat % 16)]
  else [c]

/-- A JSON string literal for `s`. -/
def jsonQuote (s : Str) : Str :=
  '"' :: (s.flatMap jsonEscapeChar) ++ ['"']

/-- Interleave `", "` between the already-rendered items of a JSON
list/object body. -/
def joinCommaSep : List Str → Str
  | [] => []
  | [x] => x
  | x :: xs => x ++ ',' :: ' ' :: joinCommaSep xs

/-- Model of `json.dumps` with explicit recursion-depth fuel (structural on fuel so
that concrete values evaluate inside the kernel).  All values built by the
modelled code have depth well under any fuel used. -/
def jsonDumpsF : Nat → PyVal → Str
  | 0, _ => []
  | _ + 1, .pynone => "null".toList
  | _ + 1, .pybool true => "true".toList
  | _ + 1, .pybool false => "false".toList
  | _ + 1, .pyint n => intToStr n
  | _ + 1, .pystr s => jsonQuote s
  | fuel + 1, .pylist xs => '[' :: joinCommaSep (xs.map (jsonDumpsF fuel)) ++ [']']
  | fuel + 1, .pydict kvs =>
    lbraceC :: joinCommaSep (kvs.map (fun kv => jsonQuote kv.1 ++ ':' :: ' ' :: jsonDumpsF fuel kv.2)) ++ [rbraceC]

/-- Model of `json.dumps(v, ensure_ascii=False)` (fuel 100 covers every value the
modelled code serializes). -/
def jsonDumps (v : PyVal) : Str :=
  jsonDumpsF 100 v

/-- Python `str()` of a value: strings verbatim, `None`/`True`/`False`,
decimal integers.  (`str` of lists and dicts never reaches the modelled
paths with a claim-relevant value and falls back to the JSON rendering.) -/
def pyStr : PyVal → Str
  | .pynone => "None".toList
  | .pybool true => "True".toList
  | .pybool false => "False".toList
  | .pyint n => intToStr n
  | .pystr s => s
  | .pylist xs => jsonDumps (.pylist xs)
  | .pydict kvs => jsonDumps (.pydict kvs)

/-- JSON whitespace. -/
def isJsonWs (c : Char) : Bool :=
  c = ' ' || c = '\t' || c = '\n' || c = '\x0d'

/-- Decode one JSON string body (after the opening quote) up to the closing
quote, handling the escapes `jsonEscapeChar` produces. -/
def jsonParseStrBody : Nat → Str → Option (Str × Str)
  | 0, _ => none
  | _ + 1, [] => none
  | fuel + 1, c :: rest =>
    if c = '"' then some ([], rest)
    else if c = '\\' then
      match rest with
      | [] => none
      | e :: rest2 =>
        let dec : Option Char :=
          if e = '"' then some '"'
          else if e = '\\' then some '\\'
          else if e = '/' then some '/'
          else if e = 'n' then some '\n'
          else if e = 't' then some '\t'
          else if e = 'r' then some '\x0d'
          else none
        match dec with
        | none => none
        | some d =>
          match jsonParseStrBody fuel rest2 with
          | none => none
          | some (s, rem) => some (d :: s, rem)
    else
      match jsonParseStrBody fuel rest with
      | none => none
      | some (s, rem) => some (c :: s, rem)

/-- Parse a run of decimal digits. -/
def parseDigits (s : Str) : Option (Nat × Str) :=
  let ds := s.takeWhile (fun c => '0' ≤ c && c ≤ '9')
  if ds = [] then none
  else some (ds.foldl (fun acc c => acc * 10 + (c.toNat - 48)) 0, s.drop ds.length)

/-- Parser modes for the single fuel-structural JSON parser: a value, the
element list of an array (with the elements parsed so far), or the member
list of an object. -/
inductive JMode where
  | val
  | elems (acc : List PyVal)
  | mems (acc : List (Str × PyVal))

/-- Recursive-descent JSON parser (integers only among numbers, which
covers everything `jsonDumps` emits); returns the parsed value and the
unconsumed remainder.  A single function structural on fuel so that
concrete runs evaluate inside the kernel. -/
def jsonParseF : Nat → JMode → Str → Option (PyVal × Str)
  | 0, _, _ => none
  | fuel + 1, .val, s0 =>
    let s := s0.dropWhile isJsonWs
    if "null".toList.isPrefixOf s then some (.pynone, s.drop 4)
    else if "true".toList.isPrefixOf s then some (.pybool true, s.drop 4)
    else if "false".toList.isPrefixOf s then some (.pybool false, s.drop 5)
    else
      match s with
      | [] => none
      | c :: rest =>
        if c = '"' then
          match jsonParseStrBody (rest.length + 1) rest with
          | none => none
          | some (str, rem) => some (.pystr str, rem)
        else if c = '-' then
          match parseDigits rest with
          | none => none
          | some (n, rem) => some (.pyint (-(n : Int)), rem)
        else if '0' ≤ c && c ≤ '9' then
          match parseDigits (c :: rest) with
          | none => none
          | some (n, rem) => some (.pyint (n : Int), rem)
        else if c = '[' then
          match rest.dropWhile isJsonWs with
          | ']' :: rem => some (.pylist [], rem)
          | _ => jsonParseF fuel (.elems []) rest
        else if c = lbraceC then
          match rest.dropWhile isJsonWs with
          | r :: rem => if r = rbraceC then some (.pydict [], rem) else jsonParseF fuel (.mems []) rest
          | [] => none
        else none
  | fuel + 1, .elems acc, s =>
    match jsonParseF fuel .val s with
    | none => none
    | some (v, rem) =>
      match rem.dropWhile isJsonWs with
      | ',' :: rem2 => jsonParseF fuel (.elems (acc ++ [v])) rem2
      | ']' :: rem2 => some (.pylist (acc ++ [v]), rem2)
      | _ => none
  | fuel + 1, .mems acc, s0 =>
    let s := s0.dropWhile isJsonWs
    match s with
    | '"' :: rest =>
      match jsonParseStrBody (rest.length + 1) rest with
      | none => none
      | some (key, rem) =>
        match rem.dropWhile isJsonWs with
        | ':' :: rem2 =>
          match jsonParseF fuel .val rem2 with
          | none => none
          | some (v, rem3) =>
            match rem3.dropWhile isJsonWs with
            | ',' :: rem4 => jsonParseF fuel (.mems (acc ++ [(key, v)])) rem4
            | r :: rem4 => if r = rbraceC then some (.pydict (acc ++ [(key, v)]), rem4) else none
            | [] => none
        | _ => none
    | _ => none

/-- Model of `json.loads`: parse a complete JSON document, requiring only trailing
whitespace after the value (`none` models `json.JSONDecodeError`). -/
def jsonLoads (s : Str) : Option PyVal :=
  match jsonParseF (2 * s.length + 4) .val s with
  | none => none
  | some (v, rem) => if rem.dropWhile isJsonWs = [] then some v else none

/-- Python `int(s)` on an already-stripped string: optional sign and a
nonempty digit run (`none` models `ValueError`). -/
def pyInt (s : Str) : Option Int :=
  match s with
  | '-' :: rest =>
    match parseDigits rest with
    | some (n, []) => some (-(n : Int))
    | _ => none
  | '+' :: rest =>
    match parseDigits rest with
    | some (n, []) => some ((n : Int))
    | _ => none
  | _ =>
    match parseDigits s with
    | some (n, []) => some ((n : Int))
    | _ => none

/-! ## Python literal evaluation (restricted model of `eval`)

`ObservationAgent.convert_xlm_to_json` applies `eval` to the raw
`suggestions` text before trying `json.loads`.  The model covers the
literal fragment of `eval` — string, integer and (nested) list literals
with single or double quotes — which is the shape this field takes;
general expression evaluation is deliberately outside the model, and every
input beyond the literal fragment is mapped to failure (`none`), as such
inputs raise `SyntaxError`/`NameError` in the source and fall through to
the next parser of the cascade. -/

/-- Decode a Python string literal body up to the closing `quote`,
with the usual backslash escapes. -/
def pyLitStrBody (quote : Char) : Nat → Str → Option (Str × Str)
  | 0, _ => none
  | _ + 1, [] => none
  | fuel + 1, c :: rest =>
    if c = quote then some ([], rest)
    else if c = '\\' then
      match rest with
      | [] => none
      | e :: rest2 =>
        let dec : Option Char :=
          if e = '\\' then some '\\'
          else if e = '\x27' then some '\x27'
          else if e = '"' then some '"'
          else if e = 'n' then some '\n'
          else if e = 't' then some '\t'
          else if e = 'r' then some '\x0d'
          else none
        match dec with
        | none => none
        | some d =>
          match pyLitStrBody quote fuel rest2 with
          | none => none
          | some (s, rem) => some (d :: s, rem)
    else
      match pyLitStrBody quote fuel rest with
      | none => none
      | some (s, rem) => some (c :: s, rem)

/-- Parser modes for Python literals: a value or the element list of a
list literal. -/
inductive LMode where
  | val
  | elems (acc : List PyVal)

/-- Fuel-structural parser for the literal fragment of Python `eval`. -/
def pyLitParseF : Nat → LMode → Str → Option (PyVal × Str)
  | 0, _, _ => none
  | fuel + 1, .val, s0 =>
    let s := s0.dropWhile isJsonWs
    if "None".toList.isPrefixOf s then some (.pynone, s.drop 4)
    else if "True".toList.isPrefixOf s then some (.pybool true, s.drop 4)
    else if "False".toList.isPrefixOf s then some (.pybool false, s.drop 5)
    else
      match s with
      | [] => none
      | c :: rest =>
        if c = '\x27' ∨ c = '"' then
          match pyLitStrBody c (rest.length + 1) rest with
          | none => none
          | some (str, rem) => some (.pystr str, rem)
        else if c = '-' then
          match parseDigits rest with
          | none => none
          | some (n, rem) => some (.pyint (-(n : Int)), rem)
        else if '0' ≤ c && c ≤ '9' then
          match parseDigits (c :: rest) with
          | none => none
          | some (n, rem) => some (.pyint (n : Int), rem)
        else if c = '[' then
          match rest.dropWhile isJsonWs with
          | ']' :: rem => some (.pylist [], rem)
          | _ => pyLitParseF fuel (.elems []) rest
        else none
  | fuel + 1, .elems acc, s =>
    match pyLitParseF fuel .val s with
    | none => none
    | some (v, rem) =>
      match rem.dropWhile isJsonWs with
      | ',' :: rem2 => pyLitParseF fuel (.elems (acc ++ [v])) rem2
      | ']' :: rem2 => some (.pylist (acc ++ [v]), rem2)
      | _ => none

/-- Model of `eval(s)` on the literal fragment: parse one complete literal
with nothing but whitespace after it; everything else fails. -/
def pyEvalLiteral (s : Str) : Option PyVal :=
  match pyLitParseF (2 * s.length + 4) .val s with
  | none => none
  | some (v, rem) => if rem.dropWhile isJsonWs = [] then some v else none

/-! ## Structured-field finalization

Shallow embeddings of `ObservationAgent.convert_xlm_to_json`
(`observation_agent.py`, lines 398-467) and
`PlanningAgent.convert_xlm_to_json` (`planning_agent.py`, lines 402-452). -/

/-- Observation field name. -/
def fNeedsMoreInput : Str := "needs_more_input".toList
/-- Observation field name. -/
def fFinishPercent : Str := "finish_percent".toList
/-- Observation field name. -/
def fIsCompleted : Str := "is_completed".toList
/-- Observation field name. -/
def fAnalysis : Str := "analysis".toList
/-- Observation field name. -/
def fSuggestions : Str := "suggestions".toList
/-- Observation field name. -/
def fUserQuery : Str := "user_query".toList
/-- Planning field name. -/
def fNextStepDescription : Str := "next_step_description".toList
/-- Planning field name. -/
def fRequiredTools : Str := "required_tools".toList
/-- Planning field name. -/
def fExpectedOutput : Str := "expected_output".toList
/-- Planning field name. -/
def fSuccessCriteria : Str := "success_criteria".toList

/-- Delimiter-bounded extraction
`xlm_content.split(open_tag)[1].split(close_tag)[0]` for field `field`:
the text between the first opening delimiter and the next opening or
closing delimiter; `none` models the `IndexError` when the opening
delimiter is absent. -/
def extractXmlField (s field : Str) : Option Str :=
  (splitSecond (mkOpenTag field) s).map (upToFirst (mkCloseTag field))

/-- The permissive parsing cascade applied to the (already stripped)
`suggestions` text: `eval`, then `json.loads`, then a single-element list
holding the raw string. -/
def parseSuggestions (s : Str) : PyVal :=
  match pyEvalLiteral s with
  | some v => v
  | none =>
    match jsonLoads s with
    | some v => v
    | none => .pylist [.pystr s]

/-- The typed record built by `ObservationAgent.convert_xlm_to_json`. -/
structure ObsRecord where
  needs_more_input : Bool
  finish_percent : Int
  is_completed : Bool
  analysis : Str
  suggestions : PyVal
  user_query : Str

/-- Model of `ObservationAgent.convert_xlm_to_json`: delimiter-bounded
extraction of each field, booleans by case-insensitive comparison of the
stripped body with `true`, integer by `int(...)`, suggestions by the
permissive cascade; `none` models the exception re-raised when a required
delimiter is missing or the integer parse fails. -/
def observation_convert_xlm_to_json (xlm_content : Str) : Option ObsRecord := do
  let nmi ← extractXmlField xlm_content fNeedsMoreInput
  let needs_more_input := pyLower (pyStrip nmi) = "true".toList
  let fp ← extractXmlField xlm_content fFinishPercent
  let finish_percent ← pyInt (pyStrip fp)
  let ic ← extractXmlField xlm_content fIsCompleted
  let is_completed := pyLower (pyStrip ic) = "true".toList
  let an ← extractXmlField xlm_content fAnalysis
  let analysis := pyStrip an
  let sg ← extractXmlField xlm_content fSuggestions
  let suggestions := parseSuggestions (pyStrip sg)
  let uq ← extractXmlField xlm_content fUserQuery
  let user_query := pyStrip uq
  return { needs_more_input, finish_percent, is_completed, analysis, suggestions, user_query }

/-- The dict `ObservationAgent.convert_xlm_to_json` returns, in its
insertion order. -/
def obsRecordToPy (r : ObsRecord) : PyVal :=
  .pydict
    [("needs_more_input".toList, .pybool r.needs_more_input),
     ("finish_percent".toList, .pyint r.finish_percent),
     ("is_completed".toList, .pybool r.is_completed),
     ("analysis".toList, .pystr r.analysis),
     ("suggestions".toList, r.suggestions),
     ("user_query".toList, .pystr r.user_query)]

/-- The content of the observation-result message built by
`ObservationAgent._finalize_observation_result`:
`'Observation: ' + json.dumps(response_json, ensure_ascii=False)`. -/
def observationContent (r : ObsRecord) : Str :=
  "Observation: ".toList ++ jsonDumps (obsRecordToPy r)

/-- The record inside `next_step` built by `PlanningAgent.convert_xlm_to_json`.
Note that `required_tools` stays the raw stripped string: the planning
extractor performs no list parsing on it. -/
structure PlanRecord where
  description : Str
  required_tools : Str
  expected_output : Str
  success_criteria : Str

/-- Model of `PlanningAgent.convert_xlm_to_json`: delimiter-bounded
extraction of the four fields, each kept as its stripped string. -/
def planning_convert_xlm_to_json (xlm_content : Str) : Option PlanRecord := do
  let d ← extractXmlField xlm_content fNextStepDescription
  let description := pyStrip d
  let rt ← extractXmlField xlm_content fRequiredTools
  let required_tools := pyStrip rt
  let eo ← extractXmlField xlm_content fExpectedOutput
  let expected_output := pyStrip eo
  let sc ← extractXmlField xlm_content fSuccessCriteria
  let success_criteria := pyStrip sc
  return { description, required_tools, expected_output, success_criteria }

/-- The dict `PlanningAgent.convert_xlm_to_json` returns:
`{"next_step": {"description": ..., "required_tools": ..., ...}}` with
`required_tools` a JSON *string*, not an array. -/
def planRecordToPy (r : PlanRecord) : PyVal :=
  .pydict
    [("next_step".toList, .pydict
      [("description".toList, .pystr r.description),
       ("required_tools".toList, .pystr r.required_tools),
       ("expected_output".toList, .pystr r.expected_output),
       ("success_criteria".toList, .pystr r.success_criteria)])]

/-! ## The capability dispatcher

Shallow embedding of `ToolManager` (`agents/tool/tool_manager.py`).
Registered specs are modelled by their runtime variant; each invocation
consumes an abstract execution outcome standing for what the bound
callable / MCP server / nested agent did (`ok v` for a returned value,
`exc m` for a raised exception).  `time.time()` is supplied as an integer
parameter; the exact wording of log/error message strings is abbreviated,
their structure (error envelope fields) is exact. -/

/-- The transport of an MCP tool: subprocess stdio or SSE. -/
inductive McpTransport where
  | stdio
  | sse
  deriving Repr, DecidableEq

/-- The runtime variant of a registered capability: a local `ToolSpec`, a
remote `McpToolSpec`, a nested-agent `AgentToolSpec`, or a value of any
other type (the registry is an untyped dict, so the dispatcher guards
against unknown entries). -/
inductive ToolSpecV where
  | toolSpec
  | mcpToolSpec (transport : McpTransport)
  | agentToolSpec
  | otherSpec
  deriving Repr, DecidableEq, Inhabited

/-- The registry `self.tools`: an insertion-ordered dict from tool name to
spec. -/
abbrev ToolRegistry := List (Str × ToolSpecV)

/-- Model of `ToolManager.register_tool`: refuse duplicates, leaving the
registry unchanged and returning `False`; otherwise add the spec under its
name and return `True`. -/
def register_tool (tools : ToolRegistry) (name : Str) (spec : ToolSpecV) : ToolRegistry × Bool :=
  if tools.any (fun kv => kv.1 = name) then
    (tools, false)
  else
    (tools ++ [(name, spec)], true)

/-- Model of `ToolManager.get_tool`: dict lookup. -/
def get_tool (tools : ToolRegistry) (name : Str) : Option ToolSpecV :=
  (tools.find? (fun kv => kv.1 = name)).map (fun kv => kv.2)

/-- What the underlying capability did when called: returned a value or
raised an exception with a message. -/
inductive ExecOutcome where
  | ok (v : PyVal)
  | exc (msg : Str)

/-- Model of `ToolManager._format_error_response`: the normalized error
envelope, serialized with `json.dumps`. -/
def format_error_response (error_msg tool_name error_type : Str)
    (exception_detail : Option Str) (timestamp : Int) : Str :=
  jsonDumps (.pydict
    ([("error".toList, .pybool true),
      ("error_type".toList, .pystr error_type),
      ("message".toList, .pystr error_msg),
      ("tool_name".toList, .pystr tool_name),
      ("timestamp".toList, .pyint timestamp)] ++
     (match exception_detail with
      | some d => [("exception_detail".toList, .pystr d)]
      | none => [])))

/-- Model of `ToolManager._execute_standard_tool`: call the bound function
(outcome), wrap a dict/list result as `{"content": <json-string>}` and any
other result as `{"content": str(result)}`. -/
def execute_standard_tool (outcome : ExecOutcome) : Except Str Str :=
  match outcome with
  | .exc m => .error m
  | .ok r =>
    match r with
    | .pydict _ => .ok (jsonDumps (.pydict [("content".toList, .pystr (jsonDumps r))]))
    | .pylist _ => .ok (jsonDumps (.pydict [("content".toList, .pystr (jsonDumps r))]))
    | _ => .ok (jsonDumps (.pydict [("content".toList, .pystr (pyStr r))]))

/-- One item of a multi-part MCP text content list:
`item.get('text', str(item))` — a dict yields its `text` value (which must
be a string, else `join` raises) or its `str()`; a non-dict raises
`AttributeError` at `.get`. -/
def mcpItemText (item : PyVal) : Except Str Str :=
  match item with
  | .pydict kvs =>
    match kvs.find? (fun kv => kv.1 = "text".toList) with
    | some kv =>
      match kv.2 with
      | .pystr s => .ok s
      | _ => .error "TypeError: sequence item is not a str".toList
    | none => .ok (pyStr item)
  | _ => .error "AttributeError: object has no attribute get".toList

/-- Collect the texts of every item, propagating the first failure. -/
def mcpItemTexts : List PyVal → Except Str (List Str)
  | [] => .ok []
  | item :: rest =>
    match mcpItemText item with
    | .error m => .error m
    | .ok s =>
      match mcpItemTexts rest with
      | .error m => .error m
      | .ok ss => .ok (s :: ss)

/-- Interleave a separator between strings (`sep.join(...)`). -/
def joinWith (sep : Str) : List Str → Str
  | [] => []
  | [x] => x
  | x :: xs => x ++ sep ++ joinWith sep xs

/-- Model of `ToolManager._execute_mcp_tool`: run the MCP call (outcome),
then if the result is a dict with truthy `content` either newline-join a
nonempty list content or stringify it, wrapping as `{"content": ...}`;
otherwise dump the result itself. -/
def execute_mcp_tool (outcome : ExecOutcome) : Except Str Str :=
  match outcome with
  | .exc m => .error m
  | .ok result =>
    match result with
    | .pydict kvs =>
      if pyTruthy (dictGet kvs "content".toList) then
        match dictGet kvs "content".toList with
        | .pylist (item :: items) =>
          match mcpItemTexts (item :: items) with
          | .error m => .error m
          | .ok texts =>
            .ok (jsonDumps (.pydict [("content".toList, .pystr (joinWith ['\n'] texts))]))
        | content =>
          .ok (jsonDumps (.pydict [("content".toList, .pystr (pyStr content))]))
      else .ok (jsonDumps result)
    | _ => .ok (jsonDumps result)

/-- Model of `ToolManager._execute_agent_tool`: run the nested agent
(outcome) and wrap its returned message list as `{"messages": ...}`. -/
def execute_agent_tool (outcome : ExecOutcome) : Except Str Str :=
  match outcome with
  | .exc m => .error m
  | .ok result => .ok (jsonDumps (.pydict [("messages".toList, result)]))

/-- Model of `ToolManager._validate_json_response`: nonempty and
`json.loads` succeeds. -/
def validate_json_response (s : Str) : Bool :=
  if s.isEmpty then false else (jsonLoads s).isSome

/-- Dispatch on the spec variant, as the isinstance chain of `run_tool`. -/
def dispatchTool (spec : ToolSpecV) (outcome : ExecOutcome) : Except Str Str :=
  match spec with
  | .mcpToolSpec _ => execute_mcp_tool outcome
  | .toolSpec => execute_standard_tool outcome
  | .agentToolSpec => execute_agent_tool outcome
  | .otherSpec => .error []

/-- Model of `ToolManager.run_tool`: look the tool up, dispatch on its
variant, convert every failure into the normalized error envelope, and
validate that the final result parses as JSON, converting a validation
failure into an `INVALID_JSON` envelope.  Total: no exception escapes. -/
def run_tool (tools : ToolRegistry) (tool_name : Str) (outcome : ExecOutcome)
    (timestamp : Int) : Str :=
  match get_tool tools tool_name with
  | none =>
    format_error_response ("Tool not found".toList ++ tool_name) tool_name
      "TOOL_NOT_FOUND".toList none timestamp
  | some spec =>
    match spec with
    | .otherSpec =>
      format_error_response "Unknown tool type".toList tool_name
        "UNKNOWN_TOOL_TYPE".toList none timestamp
    | _ =>
      match dispatchTool spec outcome with
      | .error m =>
        format_error_response ("Tool failed".toList ++ m) tool_name
          "EXECUTION_ERROR".toList (some m) timestamp
      | .ok finalResult =>
        if validate_json_response finalResult then finalResult
        else
          format_error_response "Invalid JSON response".toList tool_name
            "INVALID_JSON".toList none timestamp

/-! ## The orchestration controller

Shallow embedding of `AgentController` (`agents/agent/agent_controller.py`).
The generative stages are external collaborators: each stage invocation is
replaced by an oracle giving the message chunks (streaming) or message
lists (buffered) it produced, indexed by loop iteration where relevant.
`uuid` draws are supplied by oracles as well.  The streaming loop body of
`_execute_main_loop` is otherwise modelled verbatim, including its
`loop_count > max_loop_count` bound; the buffered loop of
`_execute_main_loop_non_stream` is modelled verbatim as well — it has no
such bound, so the model runner takes explicit fuel and reports whether it
was still looping when the fuel ran out. -/

/-- The content prefix stripped by the completion checks. -/
def kObservationPfx : Str := "Observation: ".toList
/-- Observation-result dict key. -/
def kIsCompleted : Str := "is_completed".toList
/-- Observation-result dict key. -/
def kNeedsMoreInput : Str := "needs_more_input".toList
/-- Observation-result dict key. -/
def kUserQuery : Str := "user_query".toList

/-- The outcome of `_check_loop_completion`: the possibly extended message
list and the break flag, or an uncaught exception (`.get` on a non-dict
parse result raises `AttributeError`, which the source does not catch). -/
inductive CheckResult where
  | normal (msgs : List Message) (shouldBreak : Bool)
  | raised

/-- The `user_query` value turned into the clarification content
(`obs_result.get('user_query', '')`).  String values are taken verbatim;
the modelled message type carries string content only, so other values are
rendered with `str()` (never exercised by the repository's own stages,
which always emit a string here). -/
def userQueryStr (d : List (Str × PyVal)) : Str :=
  match dictGetD d kUserQuery (.pystr []) with
  | .pystr q => q
  | v => pyStr v

/-- The clarification message appended by the streaming
`_check_loop_completion` when observation asks for more user input. -/
def clarifyMessage (freshId q : Str) : Message :=
  { message_id := freshId,
    role := "assistant".toList,
    content := some q,
    type := some "final_answer".toList,
    show_content := some (q ++ ['\n']) }

/-- Model of `AgentController._check_loop_completion` (streaming): parse
the last message's content after dropping `'Observation: '`, break on
truthy `is_completed`, append a clarification and break on truthy
`needs_more_input`; parse failures (`JSONDecodeError`/`IndexError`/
`KeyError`) are caught and mean `continue`. -/
def check_loop_completion (freshId : Str) (all_messages : List Message) : CheckResult :=
  match all_messages.getLast? with
  | none => .normal all_messages false
  | some last =>
    match last.content with
    | none => .normal all_messages false
    | some content =>
      match jsonLoads (replaceAll kObservationPfx [] content) with
      | none => .normal all_messages false
      | some (.pydict d) =>
        if pyTruthy (dictGetD d kIsCompleted (.pybool false)) then
          .normal all_messages true
        else if pyTruthy (dictGetD d kNeedsMoreInput (.pybool false)) then
          .normal (all_messages ++ [clarifyMessage freshId (userQueryStr d)]) true
        else .normal all_messages false
      | some _ => .raised

/-- The outcome of the buffered `_check_task_completion`: break (with the
clarification message to append, if any), continue, or uncaught exception. -/
inductive NSCheckResult where
  | brk (clarify : Option Message)
  | cont
  | raised

/-- The clarification message appended by the buffered
`_check_task_completion`; the source builds this dict without a
`message_id`, modelled as the empty id. -/
def clarifyMessageNS (q : Str) : Message :=
  { message_id := [],
    role := "assistant".toList,
    content := some q,
    type := some "final_answer".toList }

/-- Model of `AgentController._check_task_completion`: like the streaming
check but reading the last message of the observation batch. -/
def check_task_completion (obs_messages : List Message) : NSCheckResult :=
  match obs_messages.getLast? with
  | none => .cont
  | some last =>
    match last.content with
    | none => .cont
    | some content =>
      match jsonLoads (replaceAll kObservationPfx [] content) with
      | none => .cont
      | some (.pydict d) =>
        if pyTruthy (dictGetD d kIsCompleted (.pybool false)) then
          .brk none
        else if pyTruthy (dictGetD d kNeedsMoreInput (.pybool false)) then
          .brk (some (clarifyMessageNS (userQueryStr d)))
        else .cont
      | some _ => .raised

/-- One stage invocation of the workflow, for the invocation trace. -/
inductive StageEvent where
  | analyzeS
  | decomposeS
  | planS
  | execS
  | observeS
  | summarizeS
  deriving Repr, DecidableEq

/-- How the main loop ended: the iteration bound was reached, an
observation result broke it, a check raised, or (model artifact) the
runner's fuel ran out — with adequate fuel the streaming loop never
reports `fuelOut`, while the buffered loop reports it whenever no break
ever happened, since it has no bound of its own. -/
inductive LoopExit where
  | bound
  | broke
  | raisedE
  | fuelOut
  deriving Repr, DecidableEq

/-- The per-iteration stage outputs of one streaming run: for iteration
`k` (1-based), the chunk batches yielded by the Plan / Execute / Observe
agents, and the uuid drawn for a clarification message in that iteration. -/
structure LoopOracles where
  planChunks : Nat → List (List Message)
  execChunks : Nat → List (List Message)
  obsChunks : Nat → List (List Message)
  freshIds : Nat → Str

/-- Merge a stage's chunk batches into the running transcript one batch at
a time, as each `_execute_*_phase` does. -/
def mergePhase (msgs : List Message) (chunks : List (List Message)) : List Message :=
  chunks.foldl merge_messages msgs

/-- The transcript after the Observe merge of iteration `k` (for `k = 0`,
the transcript the loop starts from), when no break has happened yet. -/
def loopMsgsObs (o : LoopOracles) (msgs0 : List Message) : Nat → List Message
  | 0 => msgs0
  | k + 1 =>
    mergePhase
      (mergePhase
        (mergePhase (loopMsgsObs o msgs0 k) (o.planChunks (k + 1)))
        (o.execChunks (k + 1)))
      (o.obsChunks (k + 1))

/-- The transcript after the Plan merge of iteration `k+1`. -/
def loopMsgsPlan (o : LoopOracles) (msgs0 : List Message) (k : Nat) : List Message :=
  mergePhase (loopMsgsObs o msgs0 k) (o.planChunks (k + 1))

/-- The transcript after the Execute merge of iteration `k+1`. -/
def loopMsgsExec (o : LoopOracles) (msgs0 : List Message) (k : Nat) : List Message :=
  mergePhase (loopMsgsPlan o msgs0 k) (o.execChunks (k + 1))

/-- The streaming Plan-Execute-Observe loop from iteration `k` on, with
explicit fuel (structural recursion artifact; `max_loop_count + 1`
iterations always suffice).  Mirrors `_execute_main_loop`: the counter is
incremented, the bound `loop_count > max_loop_count` is checked before
Plan, and the three stages run before `_check_loop_completion` decides. -/
def main_loop_go (o : LoopOracles) (maxLoop : Nat) :
    Nat → Nat → List Message → List StageEvent × List Message × LoopExit
  | 0, _, msgs => ([], msgs, .fuelOut)
  | fuel + 1, k, msgs =>
    if k > maxLoop then ([], msgs, .bound)
    else
      let m1 := mergePhase msgs (o.planChunks k)
      let m2 := mergePhase m1 (o.execChunks k)
      let m3 := mergePhase m2 (o.obsChunks k)
      match check_loop_completion (o.freshIds k) m3 with
      | .raised => ([.planS, .execS, .observeS], m3, .raisedE)
      | .normal m4 true => ([.planS, .execS, .observeS], m4, .broke)
      | .normal m4 false =>
        let (tr, mfin, ex) := main_loop_go o maxLoop fuel (k + 1) m4
        (.planS :: .execS :: .observeS :: tr, mfin, ex)

/-- Model of `AgentController._execute_main_loop`. -/
def execute_main_loop (o : LoopOracles) (maxLoop : Nat) (msgs : List Message) :
    List StageEvent × List Message × LoopExit :=
  main_loop_go o maxLoop (maxLoop + 1) 1 msgs

/-- The stage outputs of one full streaming workflow run. -/
structure WorkflowOracles where
  analysisChunks : List (List Message)
  decomposeChunks : List (List Message)
  loopO : LoopOracles
  summaryChunks : List (List Message)

/-- Model of `AgentController._execute_full_workflow`: Analyze (when
`deep_thinking`), Decompose, the main loop, then Summarize (when
`summary`) — run unconditionally after the loop unless the loop raised. -/
def execute_full_workflow (o : WorkflowOracles) (deep_thinking summary : Bool)
    (maxLoop : Nat) (msgs0 : List Message) :
    List StageEvent × List Message × LoopExit :=
  let m1 := if deep_thinking then mergePhase msgs0 o.analysisChunks else msgs0
  let t1 : List StageEvent := if deep_thinking then [.analyzeS] else []
  let m2 := mergePhase m1 o.decomposeChunks
  let (lt, m3, ex) := execute_main_loop o.loopO maxLoop m2
  if ex = .raisedE then
    (t1 ++ .decomposeS :: lt, m3, ex)
  else if summary then
    (t1 ++ .decomposeS :: (lt ++ [.summarizeS]), mergePhase m3 o.summaryChunks, ex)
  else
    (t1 ++ .decomposeS :: lt, m3, ex)

/-- The per-iteration stage outputs of one buffered (non-streaming) run:
whole message lists, extended (not merged) onto the transcript. -/
structure NSOracles where
  planMsgs : Nat → List Message
  execMsgs : Nat → List Message
  obsMsgs : Nat → List Message

/-- The buffered Plan-Execute-Observe loop of
`_execute_main_loop_non_stream`, from iteration `k` on with explicit
fuel.  Mirrors the source `while True:` — there is no iteration bound;
only `_check_task_completion` can stop it.  `fuelOut` marks runs still
looping when the model's fuel is exhausted. -/
def main_loop_non_stream_go (o : NSOracles) :
    Nat → Nat → List Message → List Message →
    List StageEvent × List Message × List Message × LoopExit
  | 0, _, allM, newM => ([], allM, newM, .fuelOut)
  | fuel + 1, k, allM, newM =>
    let p := o.planMsgs k
    let all1 := allM ++ p
    let new1 := newM ++ p
    let e := o.execMsgs k
    let all2 := all1 ++ e
    let new2 := new1 ++ e
    let ob := o.obsMsgs k
    let all3 := all2 ++ ob
    let new3 := new2 ++ ob
    match check_task_completion ob with
    | .raised => ([.planS, .execS, .observeS], all3, new3, .raisedE)
    | .brk none => ([.planS, .execS, .observeS], all3, new3, .broke)
    | .brk (some clarify) =>
      ([.planS, .execS, .observeS], all3 ++ [clarify], new3 ++ [clarify], .broke)
    | .cont =>
      let (tr, allFin, newFin, ex) := main_loop_non_stream_go o fuel (k + 1) all3 new3
      (.planS :: .execS :: .observeS :: tr, allFin, newFin, ex)

/-- Model of `AgentController._execute_main_loop_non_stream`, run for at
most `fuel` iterations. -/
def execute_main_loop_non_stream (o : NSOracles) (fuel : Nat)
    (all_messages new_messages : List Message) :
    List StageEvent × List Message × List Message × LoopExit :=
  main_loop_non_stream_go o fuel 1 all_messages new_messages

/-- Number of Plan invocations in a stage trace. -/
def planCount (tr : List StageEvent) : Nat :=
  (tr.filter (fun e => e = .planS)).length

/-! ## Auxiliary definitions used by the theorems below -/

/-- The transcript entering the main loop: the initial messages with the
Analyze chunks (when `deep_thinking`) and the Decompose chunks merged. -/
def wfPreLoopMsgs (o : WorkflowOracles) (deep_thinking : Bool) (msgs0 : List Message) : List Message :=
  mergePhase (if deep_thinking then mergePhase msgs0 o.analysisChunks else msgs0) o.decomposeChunks

/-- A character allowed in a field-vocabulary name: not a delimiter
character and not whitespace.  Every vocabulary the repository uses
(`analysis`, `needs_more_input`, `required_tools`, ...) satisfies this. -/
def goodTagChar (c : Char) : Bool :=
  !(c = '<' || c = '>' || c = '/' || isPySpace c)

/-- A well-formed field-vocabulary name: nonempty, made of allowed
characters. -/
def goodTagName (n : Str) : Bool :=
  !n.isEmpty && n.all goodTagChar

/-- Register a whole list of (name, spec) pairs in order, starting from the
empty registry. -/
def register_all (regs : List (Str × ToolSpecV)) : ToolRegistry :=
  regs.foldl (fun acc r => (register_tool acc r.1 r.2).1) []

/-- The fold step of `firstSeen`. -/
def insStep (acc : List Str) (i : Str) : List Str :=
  if i ∈ acc then acc else acc ++ [i]

/-- An observation message whose content is not valid JSON: its parse fails,
so `_check_loop_completion` / `_check_task_completion` never signal a break
on it. -/
def obsNeverMsg : Message :=
  { message_id := "obs-never".toList,
    role := "assistant".toList,
    content := some "x".toList,
    type := some "observation_result".toList,
    show_content := some [] }

/-- Buffered-loop oracles in which Observe never signals completion. -/
def nsNeverOracle : NSOracles :=
  { planMsgs := fun _ => [],
    execMsgs := fun _ => [],
    obsMsgs := fun _ => [obsNeverMsg] }

/-- Streaming-loop oracles in which Observe never signals completion. -/
def loopNeverOracle : LoopOracles :=
  { planChunks := fun _ => [],
    execChunks := fun _ => [],
    obsChunks := fun _ => [[obsNeverMsg]],
    freshIds := fun _ => "uuid-clarify".toList }

/-- An observation message whose parsed content reports
`needs_more_input: true` (and no completion). -/
def obsNmiMsg : Message :=
  { message_id := "obs-nmi".toList,
    role := "assistant".toList,
    content := some ("Observation: ".toList ++ jsonDumps (.pydict
      [("needs_more_input".toList, .pybool true),
       ("finish_percent".toList, .pyint 10),
       ("is_completed".toList, .pybool false),
       ("analysis".toList, .pystr "missing data".toList),
       ("suggestions".toList, .pylist [.pystr "ask".toList]),
       ("user_query".toList, .pystr "Which city?".toList)])),
    type := some "observation_result".toList,
    show_content := some [] }

/-- A summary-stage output message. -/
def summaryMsg : Message :=
  { message_id := "sum-1".toList,
    role := "assistant".toList,
    content := some "All done".toList,
    type := some "final_answer".toList,
    show_content := some "All done".toList }

/-- Full-workflow oracles for a run whose first Observe result asks for
more user input. -/
def wfNmiOracle : WorkflowOracles :=
  { analysisChunks := [],
    decomposeChunks := [],
    loopO :=
      { planChunks := fun _ => [],
        execChunks := fun _ => [],
        obsChunks := fun _ => [[obsNmiMsg]],
        freshIds := fun _ => "uuid-clarify".toList },
    summaryChunks := [[summaryMsg]] }

/-- The sample Observe stream text of the scenario claim: an
`is_completed` body that is `true` surrounded by newlines, plus the other
required fields. -/
def obsXmlSample : Str :=
  ("<needs_more_input>false</needs_more_input>\n" ++
   "<finish_percent>100</finish_percent>\n" ++
   "<is_completed>\ntrue\n</is_completed>\n" ++
   "<analysis>task complete</analysis>\n" ++
   "<suggestions>[\"none\"]</suggestions>\n" ++
   "<user_query>n/a</user_query>").toList

/-- The record the sample observation text finalizes to. -/
def obsSampleRecord : ObsRecord :=
  { needs_more_input := false,
    finish_percent := 100,
    is_completed := true,
    analysis := "task complete".toList,
    suggestions := .pylist [.pystr "none".toList],
    user_query := "n/a".toList }

/-- The transcript message carrying the finalized sample observation. -/
def obsSampleMsg : Message :=
  { message_id := "obs-sample".toList,
    role := "assistant".toList,
    content := some (observationContent obsSampleRecord),
    type := some "observation_result".toList,
    show_content := some ['\\', 'n'] }

/-- The sample Plan stream text: a `required_tools` body holding a JSON
list literal. -/
def planXmlSample : Str :=
  ("<next_step_description>book it</next_step_description>\n" ++
   "<required_tools>[\"tool1_name\", \"tool2_name\"]</required_tools>\n" ++
   "<expected_output>a booking</expected_output>\n" ++
   "<success_criteria>confirmed</success_criteria>").toList

/-! ## Registry lemmas and claim C10 -/

theorem any_eq_get_tool_isSome (tools : ToolRegistry) (name : Str) :
    (tools.any (fun kv => kv.1 = name)) = (get_tool tools name).isSome := by
  induction tools with
  | nil => rfl
  | cons hd tl ih =>
    by_cases h : hd.1 = name
    · simp [get_tool, List.find?_cons, h]
    · simpa [get_tool, List.find?_cons, h] using ih

theorem get_tool_append (a b : ToolRegistry) (name : Str) :
    get_tool (a ++ b) name =
      match get_tool a name with
      | some s => some s
      | none => get_tool b name := by
  induction a with
  | nil => simp [get_tool]
  | cons hd tl ih =>
    by_cases h : hd.1 = name
    · simp [get_tool, List.find?_cons, h]
    · simpa [get_tool, List.find?_cons, h] using ih

theorem register_all_go (regs : List (Str × ToolSpecV)) (acc : ToolRegistry) (n : Str) :
    get_tool (regs.foldl (fun a r => (register_tool a r.1 r.2).1) acc) n =
      match get_tool acc n with
      | some s => some s
      | none => (regs.find? (fun r => r.1 = n)).map Prod.snd := by
  induction regs generalizing acc with
  | nil => cases h : get_tool acc n <;> simp [h]
  | cons hd tl ih =>
    simp only [List.foldl_cons]
    rw [ih]
    unfold register_tool
    by_cases hdup : acc.any (fun kv => kv.1 = hd.1)
    · rw [if_pos hdup]
      by_cases hn : hd.1 = n
      · have hs : (get_tool acc n).isSome := by
          rw [← any_eq_get_tool_isSome, ← hn]
          exact hdup
        obtain ⟨s, hsome⟩ := Option.isSome_iff_exists.mp hs
        simp [hsome]
      · cases h : get_tool acc n <;> simp [h, List.find?_cons, hn]
    · rw [if_neg hdup]
      rw [get_tool_append]
      by_cases hn : hd.1 = n
      · have hs : (get_tool acc n).isSome = false := by
          rw [← any_eq_get_tool_isSome, ← hn]
          exact Bool.eq_false_iff.mpr hdup
        have hnone : get_tool acc n = none := by
          cases h : get_tool acc n
          · rfl
          · rw [h] at hs
            exact absurd hs (by simp)
        have hone : get_tool [(hd.1, hd.2)] n = some hd.2 := by
          simp [get_tool, List.find?_cons, hn]
        rw [hnone, hone]
        simp [hnone, List.find?_cons, hn]
      · cases h : get_tool acc n <;> simp [h, get_tool, List.find?_cons, hn]

/-- C10: `register_tool` adds a spec under its name and returns `True`
exactly when the name is unregistered; a duplicate name returns `False`
and leaves the registry unchanged, so after any registration sequence each
name maps to the first spec registered under it. -/
theorem C10_register_tool_first_wins :
    ∀ (tools : ToolRegistry) (name : Str) (spec : ToolSpecV),
      (get_tool tools name = none →
        register_tool tools name spec = (tools ++ [(name, spec)], true) ∧
        get_tool (tools ++ [(name, spec)]) name = some spec) ∧
      (∀ s0, get_tool tools name = some s0 →
        register_tool tools name spec = (tools, false)) ∧
      (∀ (regs : List (Str × ToolSpecV)) (n : Str),
        get_tool (register_all regs) n = (regs.find? (fun r => r.1 = n)).map Prod.snd) := by
  intro tools name spec
  refine ⟨fun hnone => ⟨?_, ?_⟩, fun s0 hsome => ?_, fun regs n => ?_⟩
  · unfold register_tool
    have : (tools.any fun kv => kv.1 = name) = false := by
      rw [any_eq_get_tool_isSome, hnone]; rfl
    simp [this]
  · rw [get_tool_append, hnone]
    simp [get_tool, List.find?_cons]
  · unfold register_tool
    have : (tools.any fun kv => kv.1 = name) = true := by
      rw [any_eq_get_tool_isSome, hsome]; rfl
    simp [this]
  · have := register_all_go regs [] n
    simpa [get_tool, register_all] using this

/-- Witness for C10 at a concrete registry: registering `f` twice keeps the
first spec and reports `False` the second time. -/
theorem C10_register_tool_first_wins_witness :
    register_tool [] "f".toList .toolSpec = ([("f".toList, .toolSpec)], true) ∧
    register_tool [("f".toList, .toolSpec)] "f".toList .agentToolSpec =
      ([("f".toList, .toolSpec)], false) ∧
    get_tool (register_all [("f".toList, .toolSpec), ("f".toList, .agentToolSpec)]) "f".toList =
      some .toolSpec := by
  refine ⟨?_, ?_, ?_⟩
  · have h := (C10_register_tool_first_wins [] "f".toList .toolSpec).1 (by rfl)
    simpa using h.1
  · exact (C10_register_tool_first_wins [("f".toList, .toolSpec)] "f".toList
      .agentToolSpec).2.1 .toolSpec (by rfl)
  · have h3 := (C10_register_tool_first_wins [] ([] : Str) ToolSpecV.toolSpec).2.2
    rw [h3 [("f".toList, .toolSpec), ("f".toList, .agentToolSpec)] "f".toList]
    rfl

/-! ## Merge lemmas and claims C2, C9 -/

theorem mergeInto_id (e m : Message) : (mergeInto e m).message_id = e.message_id := rfl

theorem updateFirst_through (m : Message) (l1 : List Message) (e : Message) (l2 : List Message)
    (h1 : ∀ x ∈ l1, x.message_id ≠ m.message_id) (he : e.message_id = m.message_id) :
    updateFirstById m (l1 ++ e :: l2) = l1 ++ mergeInto e m :: l2 := by
  induction l1 with
  | nil => simp [updateFirstById, he]
  | cons hd tl ih =>
    have hhd : hd.message_id ≠ m.message_id := h1 hd (by simp)
    simp only [List.cons_append, updateFirstById, if_neg hhd]
    exact congrArg (hd :: .) (ih (fun x hx => h1 x (by simp [hx])))

theorem updateLast_middle (A B : List Message) (e m : Message)
    (he : e.message_id = m.message_id)
    (hB : ∀ x ∈ B, x.message_id ≠ m.message_id) :
    updateLastById (A ++ e :: B) m = A ++ mergeInto e m :: B := by
  unfold updateLastById
  have hrev : (A ++ e :: B).reverse = B.reverse ++ e :: A.reverse := by
    simp
  rw [hrev, updateFirst_through m B.reverse e A.reverse
    (fun x hx => hB x (List.mem_reverse.mp hx)) he]
  simp

theorem merge_single (T : List Message) (m : Message) :
    merge_messages T [m] = mergeOne T m := rfl

theorem any_id_of_middle (A B : List Message) (e m : Message)
    (he : e.message_id = m.message_id) :
    ((A ++ e :: B).any fun x => x.message_id = m.message_id) = true := by
  rw [List.any_eq_true]
  exact ⟨e, by simp, by simp [he]⟩

theorem any_id_false (T : List Message) (m : Message)
    (h : ∀ x ∈ T, x.message_id ≠ m.message_id) :
    (T.any fun x => x.message_id = m.message_id) = false := by
  rw [Bool.eq_false_iff]
  intro hc
  obtain ⟨x, hx, hid⟩ := List.any_eq_true.mp hc
  exact h x hx (by simpa using hid)

/-- C2: merging a fragment whose `message_id` is already in the transcript
concatenates its `content` and `show_content` onto the stored message and
leaves every other field as first seen; merging the same fragment twice
concatenates twice (merge is not idempotent by value); a fragment with a
fresh `message_id` is appended as a new message. -/
theorem C2_merge_concat_on_match :
    ∀ (A B : List Message) (e m : Message) (c sc : Str),
      e.message_id = m.message_id →
      e.content = some c →
      e.show_content = some sc →
      (∀ x ∈ A, x.message_id ≠ m.message_id) →
      (∀ x ∈ B, x.message_id ≠ m.message_id) →
      (merge_messages (A ++ e :: B) [m] =
        A ++ { e with
               content := some (c ++ m.content.getD []),
               show_content := some (sc ++ m.show_content.getD []) } :: B) ∧
      (merge_messages (merge_messages (A ++ e :: B) [m]) [m] =
        A ++ { e with
               content := some (c ++ m.content.getD [] ++ m.content.getD []),
               show_content := some (sc ++ m.show_content.getD [] ++ m.show_content.getD []) } :: B) ∧
      (∀ (T : List Message), (∀ x ∈ T, x.message_id ≠ m.message_id) →
        merge_messages T [m] = T ++ [m]) := by
  intro A B e m c sc hid hc hsc hA hB
  have hone : ∀ (e' : Message), e'.message_id = m.message_id →
      merge_messages (A ++ e' :: B) [m] = A ++ mergeInto e' m :: B := by
    intro e' hid'
    rw [merge_single]
    unfold mergeOne
    rw [any_id_of_middle A B e' m hid', if_pos rfl]
    exact updateLast_middle A B e' m hid' hB
  have h1 : merge_messages (A ++ e :: B) [m] =
      A ++ { e with
             content := some (c ++ m.content.getD []),
             show_content := some (sc ++ m.show_content.getD []) } :: B := by
    rw [hone e hid]
    unfold mergeInto
    rw [hc, hsc]
    rfl
  refine ⟨h1, ?_, ?_⟩
  · rw [h1, hone { e with
        content := some (c ++ m.content.getD []),
        show_content := some (sc ++ m.show_content.getD []) } hid]
    unfold mergeInto
    rfl
  · intro T hT
    rw [merge_single]
    unfold mergeOne
    rw [any_id_false T m hT]
    simp

/-- Witness for C2 at a concrete transcript: the stored message gets
`"ab"` after one merge and `"abb"` after merging the fragment again. -/
theorem C2_merge_concat_on_match_witness :
    merge_messages
      [{ message_id := "m1".toList, role := "assistant".toList,
         content := some "a".toList, show_content := some "a".toList }]
      [{ message_id := "m1".toList, role := "assistant".toList,
         content := some "b".toList, show_content := some "b".toList }] =
      [{ message_id := "m1".toList, role := "assistant".toList,
         content := some "ab".toList, show_content := some "ab".toList }] ∧
    merge_messages (merge_messages
      [{ message_id := "m1".toList, role := "assistant".toList,
         content := some "a".toList, show_content := some "a".toList }]
      [{ message_id := "m1".toList, role := "assistant".toList,
         content := some "b".toList, show_content := some "b".toList }])
      [{ message_id := "m1".toList, role := "assistant".toList,
         content := some "b".toList, show_content := some "b".toList }] =
      [{ message_id := "m1".toList, role := "assistant".toList,
         content := some "abb".toList, show_content := some "abb".toList }] := by
  have h := C2_merge_concat_on_match [] []
    { message_id := "m1".toList, role := "assistant".toList,
      content := some "a".toList, show_content := some "a".toList }
    { message_id := "m1".toList, role := "assistant".toList,
      content := some "b".toList, show_content := some "b".toList }
    "a".toList "a".toList rfl rfl rfl (by simp) (by simp)
  refine ⟨?_, ?_⟩
  · have := h.1
    simpa using this
  · have := h.2.1
    simpa using this

theorem idsOf_updateFirst (m : Message) (l : List Message) :
    idsOf (updateFirstById m l) = idsOf l := by
  induction l with
  | nil => rfl
  | cons hd tl ih =>
    by_cases h : hd.message_id = m.message_id
    · simp [updateFirstById, h, idsOf, mergeInto_id]
    · simp only [updateFirstById, if_neg h, idsOf, List.map_cons]
      rw [show (updateFirstById m tl).map Message.message_id = idsOf (updateFirstById m tl) from rfl, ih]
      rfl

theorem idsOf_updateLast (l : List Message) (m : Message) :
    idsOf (updateLastById l m) = idsOf l := by
  unfold updateLastById idsOf
  rw [List.map_reverse, show (updateFirstById m l.reverse).map Message.message_id =
    idsOf (updateFirstById m l.reverse) from rfl, idsOf_updateFirst]
  simp [idsOf]

theorem idsOf_mergeOne (acc : List Message) (m : Message) :
    idsOf (mergeOne acc m) = insStep (idsOf acc) m.message_id := by
  unfold mergeOne insStep
  by_cases h : m.message_id ∈ idsOf acc
  · obtain ⟨x, hx, hid⟩ := List.mem_map.mp h
    rw [if_pos (List.any_eq_true.mpr ⟨x, hx, by simp [hid]⟩), if_pos h]
    exact idsOf_updateLast acc m
  · have : (acc.any fun e => e.message_id = m.message_id) = false := by
      rw [Bool.eq_false_iff]
      intro hc
      obtain ⟨x, hx, hid⟩ := List.any_eq_true.mp hc
      exact h (List.mem_map.mpr ⟨x, hx, by simpa using hid⟩)
    rw [if_neg (by simp [this]), if_neg h]
    simp [idsOf]

theorem merge_ids (F T : List Message) :
    idsOf (merge_messages T F) = (idsOf F).foldl insStep (idsOf T) := by
  induction F generalizing T with
  | nil => rfl
  | cons f F ih =>
    show idsOf (merge_messages (mergeOne T f) F) = _
    rw [ih (mergeOne T f), idsOf_mergeOne]
    rfl

theorem firstSeen_eq_foldl (l : List Str) : firstSeen l = l.foldl insStep [] := by
  unfold firstSeen insStep
  rfl

theorem foldl_insStep_nodup (l acc : List Str) (h : (acc ++ l).Nodup) :
    l.foldl insStep acc = acc ++ l := by
  induction l generalizing acc with
  | nil => simp
  | cons x xs ih =>
    have hx : x ∉ acc := by
      intro hc
      have h2 := List.nodup_middle.mp h
      exact (List.nodup_cons.mp h2).1 (List.mem_append.mpr (Or.inl hc))
    simp only [List.foldl_cons, insStep, if_neg hx]
    rw [ih (acc ++ [x]) (by rwa [← List.append_cons])]
    simp

/-- C9: the message order of `merge(T, F)` is the insertion order of
first-seen `message_id`s across `T` followed by `F`; a fragment carrying an
already-present id never reorders, removes or duplicates messages. -/
theorem C9_merge_order_first_seen :
    ∀ (T F : List Message), (idsOf T).Nodup →
      idsOf (merge_messages T F) = firstSeen (idsOf T ++ idsOf F) := by
  intro T F hT
  rw [merge_ids, firstSeen_eq_foldl, List.foldl_append,
    foldl_insStep_nodup (idsOf T) [] (by simpa using hT)]
  simp

/-- Witness for C9 at a concrete transcript and fragment list with a
repeated id. -/
theorem C9_merge_order_first_seen_witness :
    idsOf (merge_messages
      [{ message_id := "a".toList, role := "user".toList, content := some "u".toList },
       { message_id := "b".toList, role := "assistant".toList, content := some "v".toList }]
      [{ message_id := "b".toList, role := "assistant".toList, content := some "w".toList },
       { message_id := "c".toList, role := "tool".toList, content := some "t".toList }]) =
      firstSeen (["a".toList, "b".toList] ++ ["b".toList, "c".toList]) := by
  have h := C9_merge_order_first_seen
    [{ message_id := "a".toList, role := "user".toList, content := some "u".toList },
     { message_id := "b".toList, role := "assistant".toList, content := some "v".toList }]
    [{ message_id := "b".toList, role := "assistant".toList, content := some "w".toList },
     { message_id := "c".toList, role := "tool".toList, content := some "t".toList }]
    (by decide)
  simpa [idsOf] using h

/-! ## Claim C3: dispatcher envelope totality -/

/-- C3: for every registry, tool name, capability variant and execution
outcome, `run_tool` returns either the capability's result envelope or a
normalized error envelope, and never raises: an unresolved name yields a
`TOOL_NOT_FOUND` envelope, an unrecognized spec type `UNKNOWN_TOOL_TYPE`,
a raising capability `EXECUTION_ERROR` (with the exception detail), and a
result that does not parse as JSON is converted into an `INVALID_JSON`
envelope rather than propagated. -/
theorem C3_run_tool_envelope :
    ∀ (tools : ToolRegistry) (name : Str) (outcome : ExecOutcome) (ts : Int),
      (get_tool tools name = none →
        run_tool tools name outcome ts =
          format_error_response ("Tool not found".toList ++ name) name
            "TOOL_NOT_FOUND".toList none ts) ∧
      (get_tool tools name = some .otherSpec →
        run_tool tools name outcome ts =
          format_error_response "Unknown tool type".toList name
            "UNKNOWN_TOOL_TYPE".toList none ts) ∧
      (∀ spec m, get_tool tools name = some spec → spec ≠ .otherSpec →
        dispatchTool spec outcome = .error m →
        run_tool tools name outcome ts =
          format_error_response ("Tool failed".toList ++ m) name
            "EXECUTION_ERROR".toList (some m) ts) ∧
      (∀ spec s, get_tool tools name = some spec → spec ≠ .otherSpec →
        dispatchTool spec outcome = .ok s →
        run_tool tools name outcome ts =
          (if validate_json_response s then s
           else format_error_response "Invalid JSON response".toList name
             "INVALID_JSON".toList none ts)) ∧
      ((∃ msg et det,
          et ∈ ["TOOL_NOT_FOUND".toList, "UNKNOWN_TOOL_TYPE".toList,
                "EXECUTION_ERROR".toList, "INVALID_JSON".toList] ∧
          run_tool tools name outcome ts = format_error_response msg name et det ts) ∨
       (∃ spec s, get_tool tools name = some spec ∧ dispatchTool spec outcome = .ok s ∧
          validate_json_response s = true ∧ run_tool tools name outcome ts = s)) := by
  intro tools name outcome ts
  refine ⟨fun hnone => ?_, fun hother => ?_, fun spec m hspec hno herr => ?_,
    fun spec s hspec hno hok => ?_, ?_⟩
  · simp [run_tool, hnone]
  · simp [run_tool, hother]
  · cases spec with
    | otherSpec => exact absurd rfl hno
    | toolSpec => simp [run_tool, hspec, herr]
    | mcpToolSpec t => simp [run_tool, hspec, herr]
    | agentToolSpec => simp [run_tool, hspec, herr]
  · cases spec with
    | otherSpec => exact absurd rfl hno
    | toolSpec => simp [run_tool, hspec, hok]
    | mcpToolSpec t => simp [run_tool, hspec, hok]
    | agentToolSpec => simp [run_tool, hspec, hok]
  · cases hg : get_tool tools name with
    | none =>
      exact Or.inl ⟨"Tool not found".toList ++ name, "TOOL_NOT_FOUND".toList, none,
        by simp, by simp [run_tool, hg]⟩
    | some spec =>
      cases spec with
      | otherSpec =>
        exact Or.inl ⟨"Unknown tool type".toList, "UNKNOWN_TOOL_TYPE".toList, none,
          by simp, by simp [run_tool, hg]⟩
      | toolSpec =>
        cases hd : dispatchTool .toolSpec outcome with
        | error m =>
          exact Or.inl ⟨"Tool failed".toList ++ m, "EXECUTION_ERROR".toList, some m,
            by simp, by simp [run_tool, hg, hd]⟩
        | ok s =>
          by_cases hv : validate_json_response s
          · exact Or.inr ⟨.toolSpec, s, rfl, hd, hv, by simp [run_tool, hg, hd, hv]⟩
          · exact Or.inl ⟨"Invalid JSON response".toList, "INVALID_JSON".toList, none,
              by simp, by simp [run_tool, hg, hd, hv]⟩
      | mcpToolSpec t =>
        cases hd : dispatchTool (.mcpToolSpec t) outcome with
        | error m =>
          exact Or.inl ⟨"Tool failed".toList ++ m, "EXECUTION_ERROR".toList, some m,
            by simp, by simp [run_tool, hg, hd]⟩
        | ok s =>
          by_cases hv : validate_json_response s
          · exact Or.inr ⟨.mcpToolSpec t, s, rfl, hd, hv, by simp [run_tool, hg, hd, hv]⟩
          · exact Or.inl ⟨"Invalid JSON response".toList, "INVALID_JSON".toList, none,
              by simp, by simp [run_tool, hg, hd, hv]⟩
      | agentToolSpec =>
        cases hd : dispatchTool .agentToolSpec outcome with
        | error m =>
          exact Or.inl ⟨"Tool failed".toList ++ m, "EXECUTION_ERROR".toList, some m,
            by simp, by simp [run_tool, hg, hd]⟩
        | ok s =>
          by_cases hv : validate_json_response s
          · exact Or.inr ⟨.agentToolSpec, s, rfl, hd, hv, by simp [run_tool, hg, hd, hv]⟩
          · exact Or.inl ⟨"Invalid JSON response".toList, "INVALID_JSON".toList, none,
              by simp, by simp [run_tool, hg, hd, hv]⟩

/-- Witness for C3 at concrete inputs: a missing tool yields the
`TOOL_NOT_FOUND` envelope, a raising local tool the `EXECUTION_ERROR`
envelope, and a successful local tool its validated result envelope. -/
theorem C3_run_tool_envelope_witness :
    run_tool [] "g".toList (.ok .pynone) 0 =
      format_error_response ("Tool not found".toList ++ "g".toList) "g".toList
        "TOOL_NOT_FOUND".toList none 0 ∧
    run_tool [("f".toList, .toolSpec)] "f".toList (.exc "boom".toList) 0 =
      format_error_response ("Tool failed".toList ++ "boom".toList) "f".toList
        "EXECUTION_ERROR".toList (some "boom".toList) 0 ∧
    run_tool [("f".toList, .toolSpec)] "f".toList (.ok (.pyint 7)) 0 =
      jsonDumps (.pydict [("content".toList, .pystr "7".toList)]) := by
  refine ⟨?_, ?_, ?_⟩
  · exact (C3_run_tool_envelope [] "g".toList (.ok .pynone) 0).1 (by rfl)
  · exact (C3_run_tool_envelope [("f".toList, .toolSpec)] "f".toList
      (.exc "boom".toList) 0).2.2.1 .toolSpec "boom".toList (by rfl) (by decide) (by rfl)
  · have h := (C3_run_tool_envelope [("f".toList, .toolSpec)] "f".toList
      (.ok (.pyint 7)) 0).2.2.2.1 .toolSpec
      (jsonDumps (.pydict [("content".toList, .pystr "7".toList)]))
      (by rfl) (by decide) (by rfl)
    rw [h]
    rfl

/-! ## Claims C6 and C7: structured-field finalization -/

theorem planning_convert_eq_some (s : Str) (r : PlanRecord)
    (h : planning_convert_xlm_to_json s = some r) :
    ∃ b1 b2 b3 b4,
      extractXmlField s fNextStepDescription = some b1 ∧
      extractXmlField s fRequiredTools = some b2 ∧
      extractXmlField s fExpectedOutput = some b3 ∧
      extractXmlField s fSuccessCriteria = some b4 ∧
      r = { description := pyStrip b1, required_tools := pyStrip b2,
            expected_output := pyStrip b3, success_criteria := pyStrip b4 } := by
  unfold planning_convert_xlm_to_json at h
  cases h1 : extractXmlField s fNextStepDescription with
  | none => rw [h1] at h; exact Option.noConfusion h
  | some b1 =>
    rw [h1] at h
    cases h2 : extractXmlField s fRequiredTools with
    | none => rw [h2] at h; exact Option.noConfusion h
    | some b2 =>
      rw [h2] at h
      cases h3 : extractXmlField s fExpectedOutput with
      | none => rw [h3] at h; exact Option.noConfusion h
      | some b3 =>
        rw [h3] at h
        cases h4 : extractXmlField s fSuccessCriteria with
        | none => rw [h4] at h; exact Option.noConfusion h
        | some b4 =>
          rw [h4] at h
          exact ⟨b1, b2, b3, b4, rfl, rfl, rfl, rfl, (Option.some.inj h).symm⟩

theorem observation_convert_eq_some (s : Str) (r : ObsRecord)
    (h : observation_convert_xlm_to_json s = some r) :
    ∃ b1 b2 n b3 b4 b5 b6,
      extractXmlField s fNeedsMoreInput = some b1 ∧
      extractXmlField s fFinishPercent = some b2 ∧
      pyInt (pyStrip b2) = some n ∧
      extractXmlField s fIsCompleted = some b3 ∧
      extractXmlField s fAnalysis = some b4 ∧
      extractXmlField s fSuggestions = some b5 ∧
      extractXmlField s fUserQuery = some b6 ∧
      r = { needs_more_input := pyLower (pyStrip b1) = "true".toList,
            finish_percent := n,
            is_completed := pyLower (pyStrip b3) = "true".toList,
            analysis := pyStrip b4,
            suggestions := parseSuggestions (pyStrip b5),
            user_query := pyStrip b6 } := by
  unfold observation_convert_xlm_to_json at h
  cases h1 : extractXmlField s fNeedsMoreInput with
  | none => rw [h1] at h; exact Option.noConfusion h
  | some b1 =>
    rw [h1] at h
    cases h2 : extractXmlField s fFinishPercent with
    | none => rw [h2] at h; exact Option.noConfusion h
    | some b2 =>
      rw [h2] at h
      simp only [Option.bind_eq_bind, Option.some_bind] at h
      cases hn : pyInt (pyStrip b2) with
      | none => rw [hn] at h; exact Option.noConfusion h
      | some n =>
        rw [hn] at h
        cases h3 : extractXmlField s fIsCompleted with
        | none => rw [h3] at h; exact Option.noConfusion h
        | some b3 =>
          rw [h3] at h
          cases h4 : extractXmlField s fAnalysis with
          | none => rw [h4] at h; exact Option.noConfusion h
          | some b4 =>
            rw [h4] at h
            cases h5 : extractXmlField s fSuggestions with
            | none => rw [h5] at h; exact Option.noConfusion h
            | some b5 =>
              rw [h5] at h
              cases h6 : extractXmlField s fUserQuery with
              | none => rw [h6] at h; exact Option.noConfusion h
              | some b6 =>
                rw [h6] at h
                exact ⟨b1, b2, n, b3, b4, b5, b6, rfl, rfl, hn, rfl, rfl, rfl, rfl,
                  (Option.some.inj h).symm⟩

set_option maxRecDepth 80000 in
/-- C6: finalization extracts each Observe field by delimiter-bounded
substring search and produces a typed record — `needs_more_input` and
`is_completed` become booleans via case-insensitive comparison of the
trimmed body with `true`, `finish_percent` an integer via numeric parse —
and on the sample output whose `is_completed` body is `true` surrounded by
newlines the record carries the boolean `True` (not the string) and the
controller breaks out of the loop. -/
theorem C6_finalization_types :
    ∀ (s b1 b2 b3 : Str) (n : Int) (r : ObsRecord),
      observation_convert_xlm_to_json s = some r →
      ((extractXmlField s fNeedsMoreInput = some b1 →
        (r.needs_more_input = true ↔ pyLower (pyStrip b1) = "true".toList)) ∧
       (extractXmlField s fIsCompleted = some b3 →
        (r.is_completed = true ↔ pyLower (pyStrip b3) = "true".toList)) ∧
       (extractXmlField s fFinishPercent = some b2 →
        pyInt (pyStrip b2) = some n →
        r.finish_percent = n)) ∧
      (observation_convert_xlm_to_json obsXmlSample = some obsSampleRecord ∧
       obsSampleRecord.is_completed = true ∧
       dictGet [("is_completed".toList, PyVal.pybool obsSampleRecord.is_completed)]
         "is_completed".toList = PyVal.pybool true ∧
       check_loop_completion "any-id".toList [obsSampleMsg] =
         .normal [obsSampleMsg] true) := by
  intro s b1 b2 b3 n r hconv
  constructor
  · obtain ⟨a1, a2, m, a3, a4, a5, a6, h1, h2, hm, h3, h4, h5, h6, hr⟩ :=
      observation_convert_eq_some s r hconv
    refine ⟨fun hb1 => ?_, fun hb3 => ?_, fun hb2 hn => ?_⟩
    · rw [h1] at hb1
      cases hb1
      rw [hr]
      simp
    · rw [h3] at hb3
      cases hb3
      rw [hr]
      simp
    · rw [h2] at hb2
      cases hb2
      rw [hm] at hn
      cases hn
      rw [hr]
  · exact ⟨by rfl, by rfl, by rfl, by rfl⟩

set_option maxRecDepth 80000 in
/-- Witness for C6 at the sample text: the `is_completed` body
`\ntrue\n` makes the record's boolean true, and `finish_percent` parses to
the integer 100. -/
theorem C6_finalization_types_witness :
    (obsSampleRecord.is_completed = true ↔
      pyLower (pyStrip "\ntrue\n".toList) = "true".toList) ∧
    obsSampleRecord.finish_percent = 100 := by
  have h := C6_finalization_types obsXmlSample "false".toList "100".toList
    "\ntrue\n".toList 100 obsSampleRecord (by rfl)
  exact ⟨h.1.2.1 (by rfl), h.1.2.2 (by rfl) (by rfl)⟩

set_option maxRecDepth 80000 in
/-- C7 counterexample: on the sample Plan output whose `required_tools`
body is a list literal, the planning extractor keeps the raw string — it
does not produce a list of capability names. -/
theorem C7_counterexample_plan_keeps_string :
    (match planning_convert_xlm_to_json planXmlSample with
     | some r => r.required_tools
     | none => []) = "[\"tool1_name\", \"tool2_name\"]".toList ∧
    PyVal.pystr "[\"tool1_name\", \"tool2_name\"]".toList ≠
      PyVal.pylist [.pystr "tool1_name".toList, .pystr "tool2_name".toList] := by
  exact ⟨by rfl, by intro h; exact PyVal.noConfusion h⟩

/-- C7 (amended): only Observe's `suggestions` goes through the permissive
cascade — structured-literal parse, then JSON parse, then a single-element
list holding the raw string — while Plan's `required_tools` is kept as the
raw stripped delimiter-bounded string, with no list parsing at all. -/
theorem C7_list_fields_parsing :
    ∀ (s : Str) (v : PyVal),
      (pyEvalLiteral s = some v → parseSuggestions s = v) ∧
      (pyEvalLiteral s = none → jsonLoads s = some v → parseSuggestions s = v) ∧
      (pyEvalLiteral s = none → jsonLoads s = none →
        parseSuggestions s = .pylist [.pystr s]) ∧
      (∀ (xs : Str) (r : ObsRecord), observation_convert_xlm_to_json xs = some r →
        ∀ raw, extractXmlField xs fSuggestions = some raw →
          r.suggestions = parseSuggestions (pyStrip raw)) ∧
      (∀ (xs : Str) (r : PlanRecord), planning_convert_xlm_to_json xs = some r →
        ∀ raw, extractXmlField xs fRequiredTools = some raw →
          r.required_tools = pyStrip raw) := by
  intro s v
  refine ⟨fun he => ?_, fun he hj => ?_, fun he hj => ?_, ?_, ?_⟩
  · simp [parseSuggestions, he]
  · simp [parseSuggestions, he, hj]
  · simp [parseSuggestions, he, hj]
  · intro xs r hconv raw hraw
    obtain ⟨a1, a2, m, a3, a4, a5, a6, h1, h2, hm, h3, h4, h5, h6, hr⟩ :=
      observation_convert_eq_some xs r hconv
    rw [h5] at hraw
    cases hraw
    rw [hr]
  · intro xs r hconv raw hraw
    obtain ⟨a1, a2, a3, a4, h1, h2, h3, h4, hr⟩ :=
      planning_convert_eq_some xs r hconv
    rw [h2] at hraw
    cases hraw
    rw [hr]

set_option maxRecDepth 80000 in
/-- Witness for C7 at concrete inputs: a plain sentence falls back to the
single-element list, a list literal parses structurally, and the sample
Plan text keeps its raw string. -/
theorem C7_list_fields_parsing_witness :
    parseSuggestions "just retry".toList = .pylist [.pystr "just retry".toList] ∧
    parseSuggestions "[\"a\", \"b\"]".toList =
      .pylist [.pystr "a".toList, .pystr "b".toList] ∧
    (match planning_convert_xlm_to_json planXmlSample with
     | some r => r.required_tools
     | none => []) = "[\"tool1_name\", \"tool2_name\"]".toList := by
  refine ⟨?_, ?_, ?_⟩
  · exact (C7_list_fields_parsing "just retry".toList
      (.pylist [.pystr "just retry".toList])).2.2.1 (by rfl) (by rfl)
  · exact (C7_list_fields_parsing "[\"a\", \"b\"]".toList
      (.pylist [.pystr "a".toList, .pystr "b".toList])).1 (by rfl)
  · rfl

/-! ## Claims C1 and C8: the orchestration loops -/

theorem planCount_block_cons (tr : List StageEvent) :
    planCount (.planS :: .execS :: .observeS :: tr) = planCount tr + 1 := by
  simp [planCount, List.filter]

theorem planCount_replicate (n : Nat) :
    planCount (List.replicate n [StageEvent.planS, .execS, .observeS]).flatten = n := by
  induction n with
  | zero => rfl
  | succ m ih =>
    simp only [List.replicate_succ, List.flatten_cons, List.cons_append, List.nil_append]
    rw [planCount_block_cons, ih]

theorem loopMsgsObs_step (o : LoopOracles) (msgs0 : List Message) (k : Nat) :
    loopMsgsObs o msgs0 (k + 1) =
      mergePhase
        (mergePhase
          (mergePhase (loopMsgsObs o msgs0 k) (o.planChunks (k + 1)))
          (o.execChunks (k + 1)))
        (o.obsChunks (k + 1)) := rfl

theorem main_loop_go_never (o : LoopOracles) (maxLoop : Nat) (msgs0 : List Message)
    (H : ∀ k, 1 ≤ k → k ≤ maxLoop →
      check_loop_completion (o.freshIds k) (loopMsgsObs o msgs0 k) =
        .normal (loopMsgsObs o msgs0 k) false) :
    ∀ (fuel k : Nat), 1 ≤ fuel → 1 ≤ k → k + fuel = maxLoop + 2 →
      main_loop_go o maxLoop fuel k (loopMsgsObs o msgs0 (k - 1)) =
        ((List.replicate (maxLoop + 1 - k) [StageEvent.planS, .execS, .observeS]).flatten,
         loopMsgsObs o msgs0 maxLoop, .bound) := by
  intro fuel
  induction fuel with
  | zero => intro k h0 _ _; exact absurd h0 (by omega)
  | succ n ih =>
    intro k _ hk1 hsum
    obtain ⟨j, rfl⟩ : ∃ j, k = j + 1 := ⟨k - 1, by omega⟩
    simp only [Nat.add_sub_cancel]
    by_cases hbig : j + 1 > maxLoop
    · have hrep : maxLoop + 1 - (j + 1) = 0 := by omega
      simp only [main_loop_go, if_pos hbig, hrep, List.replicate_zero, List.flatten_nil]
      have hpred : j = maxLoop := by omega
      rw [hpred]
    · have hkle : j + 1 ≤ maxLoop := by omega
      simp only [main_loop_go, if_neg hbig]
      rw [(loopMsgsObs_step o msgs0 j).symm]
      simp only [H (j + 1) hk1 hkle]
      cases n with
      | zero => omega
      | succ n2 =>
        have htail := ih (j + 1 + 1) (by omega) (by omega) (by omega)
        simp only [Nat.add_sub_cancel] at htail
        rw [htail]
        have hrep : maxLoop + 1 - (j + 1) = (maxLoop + 1 - (j + 1 + 1)) + 1 := by omega
        rw [hrep, List.replicate_succ, List.flatten_cons]
        rfl

theorem main_loop_ns_go_never (o : NSOracles)
    (H : ∀ k, check_task_completion (o.obsMsgs k) = .cont) :
    ∀ (fuel k : Nat) (allM newM : List Message),
      (main_loop_non_stream_go o fuel k allM newM).2.2.2 = .fuelOut ∧
      planCount (main_loop_non_stream_go o fuel k allM newM).1 = fuel := by
  intro fuel
  induction fuel with
  | zero => intro k allM newM; exact ⟨rfl, rfl⟩
  | succ n ih =>
    intro k allM newM
    simp only [main_loop_non_stream_go, H k]
    obtain ⟨ihex, ihcount⟩ := ih (k + 1) (allM ++ o.planMsgs k ++ o.execMsgs k ++ o.obsMsgs k)
      (newM ++ o.planMsgs k ++ o.execMsgs k ++ o.obsMsgs k)
    constructor
    · simpa using ihex
    · rw [planCount_block_cons, ihcount]

/-- C1 counterexample: the buffered (non-streaming) entry point's loop has
no iteration bound — with Observe never signalling completion it is still
looping after 11 iterations, having invoked Plan 11 times, although the
claim (with the default `max_loop_count = 10`) says Plan runs exactly 10
times and the loop then stops in both entry points. -/
theorem C1_counterexample_buffered_unbounded :
    (execute_main_loop_non_stream nsNeverOracle 11 [] []).2.2.2 = .fuelOut ∧
    planCount (execute_main_loop_non_stream nsNeverOracle 11 [] []).1 = 11 ∧
    ¬(11 = 10) := by
  refine ⟨by rfl, by rfl, by omega⟩

/-- C1 (amended): in the streaming entry point, when no Observe result
ever reports completion or a need for input, the controller halts on its
own at the `(max_loop_count + 1)`-th Plan invocation attempt — Plan,
Execute and Observe each run exactly `max_loop_count` times, the loop then
stops by its bound without raising; the buffered (non-streaming) entry
point's loop has no such bound: after any number `fuel` of iterations it
has invoked Plan `fuel` times and is still looping. -/
theorem C1_loop_termination_bound :
    (∀ (o : LoopOracles) (maxLoop : Nat) (msgs0 : List Message),
      (∀ k, 1 ≤ k → k ≤ maxLoop →
        check_loop_completion (o.freshIds k) (loopMsgsObs o msgs0 k) =
          .normal (loopMsgsObs o msgs0 k) false) →
      execute_main_loop o maxLoop msgs0 =
        ((List.replicate maxLoop [StageEvent.planS, .execS, .observeS]).flatten,
         loopMsgsObs o msgs0 maxLoop, .bound) ∧
      planCount (execute_main_loop o maxLoop msgs0).1 = maxLoop) ∧
    (∀ (o : NSOracles) (fuel : Nat) (allM newM : List Message),
      (∀ k, check_task_completion (o.obsMsgs k) = .cont) →
      (execute_main_loop_non_stream o fuel allM newM).2.2.2 = .fuelOut ∧
      planCount (execute_main_loop_non_stream o fuel allM newM).1 = fuel) := by
  constructor
  · intro o maxLoop msgs0 H
    have h := main_loop_go_never o maxLoop msgs0 H (maxLoop + 1) 1 (by omega) (by omega)
      (by omega)
    simp only [show (1 : Nat) - 1 = 0 from rfl] at h
    have heq : execute_main_loop o maxLoop msgs0 =
        ((List.replicate maxLoop [StageEvent.planS, .execS, .observeS]).flatten,
         loopMsgsObs o msgs0 maxLoop, .bound) := by
      unfold execute_main_loop
      have : maxLoop + 1 - 1 = maxLoop := by omega
      rw [show loopMsgsObs o msgs0 0 = msgs0 from rfl] at h
      rw [h, this]
    exact ⟨heq, by rw [heq]; exact planCount_replicate maxLoop⟩
  · intro o fuel allM newM H
    exact main_loop_ns_go_never o H fuel 1 allM newM

/-- Witness for C1 at concrete oracles whose Observe output never parses:
the streaming loop with `max_loop_count = 2` runs each stage twice and
stops by its bound; the buffered loop is still looping after 3 iterations. -/
theorem C1_loop_termination_bound_witness :
    execute_main_loop loopNeverOracle 2 [] =
      ((List.replicate 2 [StageEvent.planS, .execS, .observeS]).flatten,
       loopMsgsObs loopNeverOracle [] 2, .bound) ∧
    planCount (execute_main_loop_non_stream nsNeverOracle 3 [] []).1 = 3 := by
  constructor
  · exact (C1_loop_termination_bound.1 loopNeverOracle 2 []
      (by
        intro k h1 h2
        interval_cases k
        · rfl
        · rfl)).1
  · exact (C1_loop_termination_bound.2 nsNeverOracle 3 [] [] (fun k => by rfl)).2

theorem main_loop_break1 (o : LoopOracles) (maxLoop : Nat) (msgs0 : List Message)
    (m4 : List Message) (hmax : 1 ≤ maxLoop)
    (H : check_loop_completion (o.freshIds 1) (loopMsgsObs o msgs0 1) = .normal m4 true) :
    execute_main_loop o maxLoop msgs0 = ([.planS, .execS, .observeS], m4, .broke) := by
  unfold execute_main_loop
  have hm3 : mergePhase
      (mergePhase
        (mergePhase (loopMsgsObs o msgs0 0) (o.planChunks 1))
        (o.execChunks 1))
      (o.obsChunks 1) = loopMsgsObs o msgs0 1 := (loopMsgsObs_step o msgs0 0).symm
  simp only [main_loop_go, if_neg (show ¬(1 > maxLoop) by omega)]
  rw [show loopMsgsObs o msgs0 0 = msgs0 from rfl] at hm3
  rw [hm3, H]

theorem check_loop_completion_nmi (freshId : Str) (msgs : List Message)
    (last : Message) (ct : Str) (d : List (Str × PyVal)) (q : Str)
    (hlast : msgs.getLast? = some last)
    (hct : last.content = some ct)
    (hparse : jsonLoads (replaceAll kObservationPfx [] ct) = some (.pydict d))
    (hic : pyTruthy (dictGetD d kIsCompleted (.pybool false)) = false)
    (hnmi : pyTruthy (dictGetD d kNeedsMoreInput (.pybool false)) = true)
    (hq : dictGetD d kUserQuery (.pystr []) = .pystr q) :
    check_loop_completion freshId msgs =
      .normal (msgs ++ [clarifyMessage freshId q]) true := by
  unfold check_loop_completion
  simp only [hlast, hct, hparse, hic, hnmi, Bool.false_eq_true, if_false, if_true,
    userQueryStr, hq]

set_option maxRecDepth 200000 in
/-- C8 counterexample: in a run whose first Observe result reports
`needs_more_input`, the workflow (with `summary = true`, the default)
still invokes Summarize after the halt — the stage trace ends with the
Summarize stage, although the claim says Summarize is never invoked after
such a halt. -/
theorem C8_counterexample_summarize_runs :
    (execute_full_workflow wfNmiOracle true true 10 []).1 =
      [.analyzeS, .decomposeS, .planS, .execS, .observeS, .summarizeS] ∧
    StageEvent.summarizeS ∈ (execute_full_workflow wfNmiOracle true true 10 []).1 := by
  refine ⟨by rfl, ?_⟩
  rw [show (execute_full_workflow wfNmiOracle true true 10 []).1 =
    [.analyzeS, .decomposeS, .planS, .execS, .observeS, .summarizeS] from by rfl]
  simp

/-- C8 (amended): when the first Observe result parses with
`needs_more_input` true (and no completion), a clarification message with
role `assistant`, type `final_answer` and content equal to the parsed
`user_query` is appended to the transcript and the Plan-Execute-Observe
loop halts; the workflow then still invokes Summarize whenever
`summary = true` (the default) — it halts before Summarize only when
`summary = false`. -/
theorem C8_clarify_halt_then_summary :
    ∀ (o : WorkflowOracles) (dt : Bool) (maxLoop : Nat) (msgs0 : List Message)
      (last : Message) (ct : Str) (d : List (Str × PyVal)) (q : Str),
      1 ≤ maxLoop →
      (loopMsgsObs o.loopO (wfPreLoopMsgs o dt msgs0) 1).getLast? = some last →
      last.content = some ct →
      jsonLoads (replaceAll kObservationPfx [] ct) = some (.pydict d) →
      pyTruthy (dictGetD d kIsCompleted (.pybool false)) = false →
      pyTruthy (dictGetD d kNeedsMoreInput (.pybool false)) = true →
      dictGetD d kUserQuery (.pystr []) = .pystr q →
      (clarifyMessage (o.loopO.freshIds 1) q =
        { message_id := o.loopO.freshIds 1,
          role := "assistant".toList,
          content := some q,
          type := some "final_answer".toList,
          show_content := some (q ++ ['\n']) }) ∧
      (execute_full_workflow o dt true maxLoop msgs0 =
        ((if dt then [StageEvent.analyzeS] else []) ++
          [.decomposeS, .planS, .execS, .observeS, .summarizeS],
         mergePhase
           (loopMsgsObs o.loopO (wfPreLoopMsgs o dt msgs0) 1 ++
             [clarifyMessage (o.loopO.freshIds 1) q])
           o.summaryChunks,
         .broke)) ∧
      (execute_full_workflow o dt false maxLoop msgs0 =
        ((if dt then [StageEvent.analyzeS] else []) ++
          [.decomposeS, .planS, .execS, .observeS],
         loopMsgsObs o.loopO (wfPreLoopMsgs o dt msgs0) 1 ++
           [clarifyMessage (o.loopO.freshIds 1) q],
         .broke)) := by
  intro o dt maxLoop msgs0 last ct d q hmax hlast hct hparse hic hnmi hq
  have hcheck := check_loop_completion_nmi (o.loopO.freshIds 1)
    (loopMsgsObs o.loopO (wfPreLoopMsgs o dt msgs0) 1) last ct d q
    hlast hct hparse hic hnmi hq
  have hloop := main_loop_break1 o.loopO maxLoop (wfPreLoopMsgs o dt msgs0)
    (loopMsgsObs o.loopO (wfPreLoopMsgs o dt msgs0) 1 ++
      [clarifyMessage (o.loopO.freshIds 1) q]) hmax hcheck
  have hloop2 : execute_main_loop o.loopO maxLoop
      (mergePhase (if dt = true then mergePhase msgs0 o.analysisChunks else msgs0)
        o.decomposeChunks) =
      ([StageEvent.planS, .execS, .observeS],
       loopMsgsObs o.loopO (wfPreLoopMsgs o dt msgs0) 1 ++
         [clarifyMessage (o.loopO.freshIds 1) q], .broke) := hloop
  refine ⟨rfl, ?_, ?_⟩
  · simp only [execute_full_workflow]
    rw [hloop2]
    cases dt <;> rfl
  · simp only [execute_full_workflow]
    rw [hloop2]
    cases dt <;> rfl

set_option maxRecDepth 200000 in
/-- Witness for C8 at the concrete needs-more-input run: the workflow with
`summary = true` ends its trace with Summarize. -/
theorem C8_clarify_halt_then_summary_witness :
    execute_full_workflow wfNmiOracle true true 10 [] =
      ([.analyzeS, .decomposeS, .planS, .execS, .observeS, .summarizeS],
       mergePhase
         (loopMsgsObs wfNmiOracle.loopO (wfPreLoopMsgs wfNmiOracle true []) 1 ++
           [clarifyMessage (wfNmiOracle.loopO.freshIds 1) "Which city?".toList])
         wfNmiOracle.summaryChunks,
       .broke) := by
  have h := C8_clarify_halt_then_summary wfNmiOracle true 10 [] obsNmiMsg
    (obsNmiMsg.content.getD [])
    [("needs_more_input".toList, .pybool true),
     ("finish_percent".toList, .pyint 10),
     ("is_completed".toList, .pybool false),
     ("analysis".toList, .pystr "missing data".toList),
     ("suggestions".toList, .pylist [.pystr "ask".toList]),
     ("user_query".toList, .pystr "Which city?".toList)]
    "Which city?".toList
    (by omega) (by rfl) (by rfl) (by rfl) (by rfl) (by rfl) (by rfl)
  exact h.2.1

/-! ## Classifier lemmas and claims C4, C5 -/

theorem occursAt_mem (t s : Str) (i : Nat) (h : occursAt t s i = true)
    (c : Char) (hc : c ∈ t) : c ∈ s := by
  unfold occursAt at h
  exact List.mem_of_mem_drop ((List.isPrefixOf_iff_prefix.mp h).subset hc)

theorem pyRfind_eq_none (t s : Str) (h : ∀ i, occursAt t s i = false) :
    pyRfind t s = none := by
  unfold pyRfind
  rw [List.filter_eq_nil_iff.mpr (fun a _ => by simp [h a])]
  rfl

theorem pyRfind_none_of_mem (t s : Str) (c : Char) (hc : c ∈ t) (hs : c ∉ s) :
    pyRfind t s = none := by
  apply pyRfind_eq_none
  intro i
  rw [Bool.eq_false_iff]
  intro hocc
  exact hs (occursAt_mem t s i hocc c hc)

theorem gt_mem_mkOpenTag (n : Str) : '>' ∈ mkOpenTag n := by simp [mkOpenTag]

theorem gt_mem_mkCloseTag (n : Str) : '>' ∈ mkCloseTag n := by simp [mkCloseTag]

theorem findLastTag_none (tags : List Str) (s : Str)
    (h : ∀ t ∈ tags, pyRfind t s = none) : findLastTag tags s = none := by
  unfold findLastTag
  induction tags with
  | nil => rfl
  | cons hd tl ih =>
    rw [List.foldl_cons]
    simp only [h hd (by simp)]
    exact ih (fun t ht => h t (by simp [ht]))

theorem filter_range_singleton (p : Nat → Bool) (n : Nat) (h0 : p 0 = true)
    (h : ∀ i, i ≠ 0 → i ≤ n → p i = false) :
    (List.range (n + 1)).filter p = [0] := by
  induction n with
  | zero => simp [List.range_succ, List.range_zero, h0]
  | succ m ih =>
    rw [List.range_succ, List.filter_append,
      ih (fun i hi hile => h i hi (by omega))]
    simp [h (m + 1) (by omega) (by omega)]

theorem filter_range_pair (p : Nat → Bool) (m n : Nat) (hm : m ≠ 0) (hmn : m ≤ n)
    (h0 : p 0 = true) (hm1 : p m = true)
    (h : ∀ i, i ≠ 0 → i ≠ m → i ≤ n → p i = false) :
    (List.range (n + 1)).filter p = [0, m] := by
  induction n with
  | zero => omega
  | succ k ih =>
    by_cases hk : m ≤ k
    · rw [List.range_succ, List.filter_append,
        ih hk (fun i h1 h2 h3 => h i h1 h2 (by omega))]
      simp [h (k + 1) (by omega) (by omega) (by omega)]
    · have hmk : m = k + 1 := by omega
      rw [List.range_succ, List.filter_append,
        filter_range_singleton p k h0 (fun i h1 h2 => h i h1 (by omega) (by omega))]
      subst hmk
      simp [hm1]

theorem occursAt_le_length (t s : Str) (i : Nat) (ht : t ≠ [])
    (h : occursAt t s i = true) : i ≤ s.length := by
  unfold occursAt at h
  obtain ⟨r, hr⟩ := List.isPrefixOf_iff_prefix.mp h
  by_contra hc
  have : s.drop i = [] := List.drop_eq_nil_of_le (by omega)
  rw [this] at hr
  cases t with
  | nil => exact ht rfl
  | cons c cs => exact List.noConfusion hr

theorem pyRfind_single (t s : Str) (h0 : occursAt t s 0 = true)
    (h : ∀ i, i ≠ 0 → occursAt t s i = false) : pyRfind t s = some 0 := by
  unfold pyRfind
  rw [filter_range_singleton _ _ h0 (fun i hi _ => h i hi)]
  rfl

theorem pyRfind_pair (t s : Str) (m : Nat) (hm : m ≠ 0) (hmn : m ≤ s.length)
    (h0 : occursAt t s 0 = true) (hm1 : occursAt t s m = true)
    (h : ∀ i, i ≠ 0 → i ≠ m → occursAt t s i = false) : pyRfind t s = some m := by
  unfold pyRfind
  rw [filter_range_pair _ m s.length hm hmn h0 hm1 (fun i h1 h2 _ => h i h1 h2)]
  rfl

theorem findLastTag_max_aux (s t1 : Str) (m : Nat) :
    ∀ (l : List Str) (acc : Option (Str × Nat)),
      (∀ t ∈ l, ∀ i, pyRfind t s = some i → i ≤ m ∧ (i = m → t = t1)) →
      (acc = some (t1, m) ∨
        (t1 ∈ l ∧ pyRfind t1 s = some m ∧
          (acc = none ∨ ∃ t' i', acc = some (t', i') ∧ i' < m))) →
      l.foldl
        (fun acc t =>
          match pyRfind t s with
          | none => acc
          | some i =>
            match acc with
            | none => some (t, i)
            | some (_, i0) => if i > i0 then some (t, i) else acc)
        acc = some (t1, m) := by
  intro l
  induction l with
  | nil =>
    intro acc _ hinv
    rcases hinv with h | ⟨hmem, _⟩
    · exact h
    · exact absurd hmem (by simp)
  | cons hd tl ih =>
    intro acc hb hinv
    rw [List.foldl_cons]
    apply ih _ (fun t ht i hr => hb t (by simp [ht]) i hr)
    cases hr : pyRfind hd s with
    | none =>
      simp only
      rcases hinv with hacc | ⟨hmem, hrt1, haccs⟩
      · exact Or.inl hacc
      · rcases List.mem_cons.mp hmem with heq | hmem'
        · rw [← heq] at hr
          rw [hr] at hrt1
          exact Option.noConfusion hrt1
        · exact Or.inr ⟨hmem', hrt1, haccs⟩
    | some i =>
      obtain ⟨hile, him⟩ := hb hd (by simp) i hr
      simp only
      rcases hinv with hacc | ⟨hmem, hrt1, haccs⟩
      · rw [hacc]
        refine Or.inl ?_
        simp [show ¬(i > m) by omega]
      · rcases List.mem_cons.mp hmem with heq | hmem'
        · rw [← heq] at hr
          rw [hr] at hrt1
          obtain him2 := Option.some.inj hrt1
          rcases haccs with haccn | ⟨t', i', hacc', hilt⟩
          · rw [haccn]
            refine Or.inl ?_
            rw [heq, him2]
          · rw [hacc']
            refine Or.inl ?_
            rw [him2]
            simp only [show m > i' from by omega, if_true]
            rw [heq]
        · by_cases hieq : i = m
          · rcases haccs with haccn | ⟨t', i', hacc', hilt⟩
            · rw [haccn]
              refine Or.inl ?_
              rw [him hieq, hieq]
            · rw [hacc']
              refine Or.inl ?_
              rw [him hieq, hieq]
              simp only [show m > i' from by omega, if_true]
          · have hilt2 : i < m := by omega
            rcases haccs with haccn | ⟨t', i', hacc', hilt⟩
            · rw [haccn]
              exact Or.inr ⟨hmem', hrt1, Or.inr ⟨hd, i, rfl, hilt2⟩⟩
            · rw [hacc']
              by_cases hgt : i > i'
              · refine Or.inr ⟨hmem', hrt1, Or.inr ⟨hd, i, ?_, hilt2⟩⟩
                simp [hgt]
              · refine Or.inr ⟨hmem', hrt1, Or.inr ⟨t', i', ?_, hilt⟩⟩
                simp [hgt]

theorem findLastTag_max (tags : List Str) (s t1 : Str) (m : Nat)
    (hmem : t1 ∈ tags) (h1 : pyRfind t1 s = some m)
    (hb : ∀ t ∈ tags, ∀ i, pyRfind t s = some i → i ≤ m ∧ (i = m → t = t1)) :
    findLastTag tags s = some (t1, m) := by
  unfold findLastTag
  exact findLastTag_max_aux s t1 m tags none hb (Or.inr ⟨hmem, h1, Or.inl rfl⟩)

theorem goodTagChar_spec (c : Char) (h : goodTagChar c = true) :
    c ≠ '<' ∧ c ≠ '>' ∧ c ≠ '/' ∧ isPySpace c = false := by
  unfold goodTagChar at h
  simp only [Bool.not_eq_true', Bool.or_eq_false_iff, decide_eq_false_iff_not] at h
  exact ⟨h.1.1.1, h.1.1.2, h.1.2, h.2⟩

theorem goodTagName_ne_nil (n : Str) (h : goodTagName n = true) : n ≠ [] := by
  unfold goodTagName at h
  intro hc
  rw [hc] at h
  simp at h

theorem goodTagName_chars (n : Str) (h : goodTagName n = true) :
    ∀ c ∈ n, goodTagChar c = true := by
  unfold goodTagName at h
  rw [Bool.and_eq_true] at h
  intro c hc
  exact List.all_eq_true.mp h.2 c hc

theorem good_not_mem_lt (n : Str) (h : goodTagName n = true) : '<' ∉ n := by
  intro hc
  exact (goodTagChar_spec '<' (goodTagName_chars n h '<' hc)).1 rfl

theorem good_not_mem_gt (n : Str) (h : goodTagName n = true) : '>' ∉ n := by
  intro hc
  exact (goodTagChar_spec '>' (goodTagName_chars n h '>' hc)).2.1 rfl

theorem good_not_mem_slash (n : Str) (h : goodTagName n = true) : '/' ∉ n := by
  intro hc
  exact (goodTagChar_spec '/' (goodTagName_chars n h '/' hc)).2.2.1 rfl

theorem good_head_spec (x : Char) (X : Str) (h : goodTagName (x :: X) = true) :
    x ≠ '<' ∧ x ≠ '>' ∧ x ≠ '/' ∧ isPySpace x = false :=
  goodTagChar_spec x (goodTagName_chars (x :: X) h x (by simp))

theorem append_gt_prefix (Y : Str) : ∀ (X w : Str), '>' ∉ Y → '>' ∉ X →
    (Y ++ ['>']) <+: ((X ++ ['>']) ++ w) → Y = X := by
  induction Y with
  | nil =>
    intro X w _ hX h
    cases X with
    | nil => rfl
    | cons x X' =>
      rw [List.nil_append, List.cons_append, List.cons_append] at h
      have hx := (List.cons_prefix_cons.mp h).1
      exact absurd (by rw [hx]; exact List.mem_cons_self x X') hX
  | cons y Y' ih =>
    intro X w hY hX h
    cases X with
    | nil =>
      rw [List.cons_append, List.nil_append] at h
      have hy := (List.cons_prefix_cons.mp h).1
      exact absurd (by rw [← hy]; exact List.mem_cons_self y Y') hY
    | cons x X' =>
      rw [List.cons_append, List.cons_append, List.cons_append] at h
      obtain ⟨hyx, h'⟩ := List.cons_prefix_cons.mp h
      rw [hyx]
      rw [show (X' ++ ['>']) ++ w = (X' ++ ['>']) ++ w from rfl] at h'
      have := ih X' w (fun hc => hY (by simp [hc])) (fun hc => hX (by simp [hc])) h'
      rw [this]

theorem open_prefix_open (Y X w : Str) (hgY : goodTagName Y = true)
    (hgX : goodTagName X = true)
    (h : (mkOpenTag Y) <+: (mkOpenTag X ++ w)) : Y = X := by
  unfold mkOpenTag at h
  rw [List.cons_append] at h
  obtain ⟨-, h2⟩ := List.cons_prefix_cons.mp h
  exact append_gt_prefix Y X w (good_not_mem_gt Y hgY) (good_not_mem_gt X hgX) h2

theorem close_not_prefix_open (Y X w : Str) (hgX : goodTagName X = true)
    (h : (mkCloseTag Y) <+: (mkOpenTag X ++ w)) : False := by
  unfold mkCloseTag mkOpenTag at h
  rw [List.cons_append] at h
  obtain ⟨-, h2⟩ := List.cons_prefix_cons.mp h
  cases X with
  | nil => exact goodTagName_ne_nil [] hgX rfl
  | cons x X' =>
    rw [List.cons_append, List.cons_append] at h2
    have hx := (List.cons_prefix_cons.mp h2).1
    exact (good_head_spec x X' hgX).2.2.1 hx.symm

theorem open_not_prefix_close (Y X : Str) (hgY : goodTagName Y = true)
    (h : (mkOpenTag Y) <+: (mkCloseTag X)) : False := by
  unfold mkOpenTag mkCloseTag at h
  obtain ⟨-, h2⟩ := List.cons_prefix_cons.mp h
  cases Y with
  | nil =>
    rw [List.nil_append] at h2
    have hy := (List.cons_prefix_cons.mp h2).1
    exact absurd hy (by decide)
  | cons y Y' =>
    rw [List.cons_append] at h2
    have hy := (List.cons_prefix_cons.mp h2).1
    exact (good_head_spec y Y' hgY).2.2.1 hy

theorem close_prefix_close (Y X : Str) (hgY : goodTagName Y = true)
    (hgX : goodTagName X = true)
    (h : (mkCloseTag Y) <+: (mkCloseTag X)) : Y = X := by
  unfold mkCloseTag at h
  obtain ⟨-, h2⟩ := List.cons_prefix_cons.mp h
  obtain ⟨-, h3⟩ := List.cons_prefix_cons.mp h2
  have := append_gt_prefix Y X [] (good_not_mem_gt Y hgY) (good_not_mem_gt X hgX)
    (by simpa using h3)
  exact this

theorem open_ne_close (Y X : Str) (hgY : goodTagName Y = true) :
    mkOpenTag Y ≠ mkCloseTag X := by
  intro h
  unfold mkOpenTag mkCloseTag at h
  have h2 := List.cons.inj h
  cases Y with
  | nil => exact absurd (List.cons.inj h2.2).1 (by decide)
  | cons y Y' =>
    rw [List.cons_append] at h2
    exact (good_head_spec y Y' hgY).2.2.1 (List.cons.inj h2.2).1

/-! Strip lemmas -/

theorem stripRight_append (a b : Str) :
    stripRight (a ++ b) =
      if stripRight b = [] then stripRight a else a ++ stripRight b := by
  unfold stripRight
  rw [List.reverse_append, List.dropWhile_append]
  by_cases hb : (b.reverse.dropWhile isPySpace).isEmpty
  · rw [if_pos hb]
    rw [if_pos (by simpa [List.isEmpty_iff, List.reverse_eq_nil_iff] using hb)]
  · rw [if_neg hb]
    rw [if_neg (by simpa [List.isEmpty_iff, List.reverse_eq_nil_iff] using hb)]
    rw [List.reverse_append, List.reverse_reverse]

theorem stripRight_eq_nil_iff (z : Str) :
    stripRight z = [] ↔ ∀ c ∈ z, isPySpace c = true := by
  unfold stripRight
  rw [List.reverse_eq_nil_iff, List.dropWhile_eq_nil_iff]
  constructor
  · intro h c hc
    exact h c (List.mem_reverse.mpr hc)
  · intro h c hc
    exact h c (List.mem_reverse.mp hc)

theorem stripRight_last_nonspace (z : Str) (c : Char) (hc : isPySpace c = false) :
    stripRight (z ++ [c]) = z ++ [c] := by
  unfold stripRight
  rw [List.reverse_append]
  simp [List.dropWhile_cons, hc]

theorem stripRight_mem (z : Str) (c : Char) (h : c ∈ stripRight z) : c ∈ z := by
  unfold stripRight at h
  have := List.mem_reverse.mp h
  have := (List.dropWhile_sublist (p := isPySpace) (l := z.reverse)).mem this
  exact List.mem_reverse.mp this

theorem pyStrip_mem (z : Str) (c : Char) (h : c ∈ pyStrip z) : c ∈ z := by
  unfold pyStrip at h
  have h2 := stripRight_mem _ c h
  have := (List.dropWhile_sublist (p := isPySpace) (l := z)).mem h2
  exact this

theorem stripRight_open (X : Str) : stripRight (mkOpenTag X) = mkOpenTag X := by
  have : mkOpenTag X = ('<' :: X) ++ ['>'] := by simp [mkOpenTag]
  rw [this]
  exact stripRight_last_nonspace ('<' :: X) '>' (by decide)

theorem pyStrip_open_append (X z : Str) :
    pyStrip (mkOpenTag X ++ z) = mkOpenTag X ++ stripRight z := by
  unfold pyStrip
  have h1 : (mkOpenTag X ++ z).dropWhile isPySpace = mkOpenTag X ++ z := by
    unfold mkOpenTag
    rw [List.cons_append, List.dropWhile_cons]
    simp [isPySpace]
  rw [h1, stripRight_append]
  by_cases hz : stripRight z = []
  · rw [if_pos hz, hz, stripRight_open, List.append_nil]
  · rw [if_neg hz]

theorem occursAt_getElem (t s : Str) (i : Nat) (c : Char) (rest : Str)
    (ht : t = c :: rest) (h : occursAt t s i = true) : s[i]? = some c := by
  unfold occursAt at h
  obtain ⟨r, hr⟩ := List.isPrefixOf_iff_prefix.mp h
  have h0 : (s.drop i)[0]? = some c := by
    rw [← hr, ht, List.cons_append]
    exact List.getElem?_cons_zero
  rw [List.getElem?_drop] at h0
  simpa using h0

theorem lt_index_zero (d : Str) (i : Nat) (hd : '<' ∉ d)
    (h : ('<' :: d)[i]? = some '<') : i = 0 := by
  cases i with
  | zero => rfl
  | succ j =>
    rw [List.getElem?_cons_succ] at h
    exact absurd (List.getElem?_mem h) hd

theorem open_append_shape (X w : Str) : mkOpenTag X ++ w = '<' :: ((X ++ ['>']) ++ w) := by
  simp [mkOpenTag]

theorem lt_not_mem_body (X w : Str) (hgX : goodTagName X = true) (hw : '<' ∉ w) :
    '<' ∉ (X ++ ['>']) ++ w := by
  intro hc
  rcases List.mem_append.mp hc with h1 | h1
  · rcases List.mem_append.mp h1 with h2 | h2
    · exact good_not_mem_lt X hgX h2
    · simp at h2
  · exact hw h1

theorem occ_single_lt (t d : Str) (i : Nat) (t2 : Str) (ht : t = '<' :: t2)
    (hd : '<' ∉ d) (h : occursAt t ('<' :: d) i = true) : i = 0 :=
  lt_index_zero d i hd (occursAt_getElem t _ i '<' t2 ht h)

theorem occursAt_zero_iff (t s : Str) : occursAt t s 0 = true ↔ t <+: s := by
  unfold occursAt
  rw [List.drop_zero]
  exact List.isPrefixOf_iff_prefix

theorem rfind_open_shape (X w Y : Str) (hgX : goodTagName X = true)
    (hgY : goodTagName Y = true) (hw : '<' ∉ w) :
    (pyRfind (mkOpenTag Y) (mkOpenTag X ++ w) = if Y = X then some 0 else none) ∧
    pyRfind (mkCloseTag Y) (mkOpenTag X ++ w) = none := by
  have hshape := open_append_shape X w
  have hmem : '<' ∉ (X ++ ['>']) ++ w := lt_not_mem_body X w hgX hw
  constructor
  · by_cases hYX : Y = X
    · rw [if_pos hYX, hYX]
      apply pyRfind_single
      · rw [occursAt_zero_iff]
        exact List.prefix_append _ _
      · intro i hi
        rw [Bool.eq_false_iff]
        intro hocc
        rw [hshape] at hocc
        exact hi (occ_single_lt _ _ i _ rfl hmem hocc)
    · rw [if_neg hYX]
      apply pyRfind_eq_none
      intro i
      rw [Bool.eq_false_iff]
      intro hocc
      have hi0 : i = 0 := by
        rw [hshape] at hocc
        exact occ_single_lt _ _ i _ rfl hmem hocc
      rw [hi0, occursAt_zero_iff] at hocc
      exact hYX (open_prefix_open Y X w hgY hgX hocc)
  · apply pyRfind_eq_none
    intro i
    rw [Bool.eq_false_iff]
    intro hocc
    have hi0 : i = 0 := by
      rw [hshape] at hocc
      exact occ_single_lt _ _ i _ rfl hmem hocc
    rw [hi0, occursAt_zero_iff] at hocc
    exact close_not_prefix_open Y X w hgX hocc

theorem stripAngles_open (X : Str) (hg : goodTagName X = true) :
    stripAngles (mkOpenTag X) = X := by
  have hX : X.filter (fun c => !(c = '<' || c = '>')) = X :=
    List.filter_eq_self.mpr (fun c hc => by
      obtain ⟨h1, h2, -, -⟩ := goodTagChar_spec c (goodTagName_chars X hg c hc)
      simp [h1, h2])
  unfold stripAngles mkOpenTag
  rw [List.filter_cons, List.filter_append, hX]
  simp

theorem findLastTag_open_shape (tags : List Str)
    (GN : ∀ n ∈ tags, goodTagName n = true)
    (X : Str) (hX : X ∈ tags) (w : Str) (hw : '<' ∉ w) :
    findLastTag (tags.map mkOpenTag ++ tags.map mkCloseTag) (mkOpenTag X ++ w) =
      some (mkOpenTag X, 0) := by
  apply findLastTag_max
  · exact List.mem_append_left _ (List.mem_map_of_mem mkOpenTag hX)
  · have := (rfind_open_shape X w X (GN X hX) (GN X hX) hw).1
    rwa [if_pos rfl] at this
  · intro t ht i hr
    rcases List.mem_append.mp ht with hto | htc
    · obtain ⟨Y, hY, rfl⟩ := List.mem_map.mp hto
      have := (rfind_open_shape X w Y (GN X hX) (GN Y hY) hw).1
      by_cases hYX : Y = X
      · rw [if_pos hYX] at this
        rw [this] at hr
        obtain hi := Option.some.inj hr
        exact ⟨by omega, fun _ => by rw [hYX]⟩
      · rw [if_neg hYX] at this
        rw [this] at hr
        exact Option.noConfusion hr
    · obtain ⟨Y, hY, rfl⟩ := List.mem_map.mp htc
      have := (rfind_open_shape X w Y (GN X hX) (GN Y hY) hw).2
      rw [this] at hr
      exact Option.noConfusion hr

theorem no_close_pfx_suffix (tags : List Str)
    (GN : ∀ n ∈ tags, goodTagName n = true)
    (X : Str) (hgX : goodTagName X = true) (w : Str) (hw : '<' ∉ w) (hwne : w ≠ []) :
    ((tags.map mkCloseTag).flatMap nonemptyPfxs).any
      (fun p => p.isSuffixOf (mkOpenTag X ++ w)) = false := by
  rw [Bool.eq_false_iff]
  intro hc
  obtain ⟨p, hpmem, hpsuf⟩ := List.any_eq_true.mp hc
  obtain ⟨ct, hctmem, hp⟩ := List.mem_flatMap.mp hpmem
  obtain ⟨Y, hY, rfl⟩ := List.mem_map.mp hctmem
  unfold nonemptyPfxs at hp
  obtain ⟨j, hj, rfl⟩ := List.mem_map.mp hp
  rw [List.mem_range] at hj
  -- p = (mkCloseTag Y).take (j + 1) starts with '<'
  have hpcons : (mkCloseTag Y).take (j + 1) = '<' :: ('/' :: (Y ++ ['>'])).take j := by
    rfl
  obtain ⟨r, hr⟩ := List.isSuffixOf_iff_suffix.mp hpsuf
  -- the '<' leading p sits at index r.length of the whole string
  have hidx : (mkOpenTag X ++ w)[r.length]? = some '<' := by
    rw [← hr, hpcons, List.getElem?_append_right (Nat.le_refl _)]
    simp
  rw [open_append_shape X w] at hidx
  have hr0 : r.length = 0 := lt_index_zero _ _ (lt_not_mem_body X w hgX hw) hidx
  have hrnil : r = [] := List.eq_nil_of_length_eq_zero hr0
  rw [hrnil, List.nil_append] at hr
  -- so the partial closing tag equals the whole accumulated string
  have hlen : 4 ≤ ((mkCloseTag Y).take (j + 1)).length := by
    rw [hr]
    have h1 : 3 ≤ (mkOpenTag X).length := by
      unfold mkOpenTag
      simp
      have := goodTagName_ne_nil X hgX
      cases X with
      | nil => exact absurd rfl this
      | cons c cs => simp
    have h2 : 1 ≤ w.length := by
      cases w with
      | nil => exact absurd rfl hwne
      | cons c cs => simp
    rw [List.length_append]
    omega
  have hj2 : 2 ≤ j + 1 := by
    have := List.length_take_le (j + 1) (mkCloseTag Y)
    omega
  -- index 1 of the string: on one side '/', on the other the head of X
  have hslash : ((mkCloseTag Y).take (j + 1))[1]? = some '/' := by
    rw [hpcons]
    rw [List.getElem?_cons_succ]
    have : (0 : Nat) < j := by omega
    cases hcase : j with
    | zero => omega
    | succ j2 =>
      rw [List.take_succ_cons]
      exact List.getElem?_cons_zero
  rw [hr, open_append_shape X w] at hslash
  rw [List.getElem?_cons_succ] at hslash
  cases hXc : X with
  | nil => exact goodTagName_ne_nil X hgX hXc
  | cons x X' =>
    rw [hXc] at hslash
    rw [List.cons_append, List.cons_append] at hslash
    simp only [List.getElem?_cons_zero] at hslash
    obtain hx := Option.some.inj hslash
    rw [hXc] at hgX
    exact (good_head_spec x X' hgX).2.2.1 hx

theorem judge_in_field (tags : List Str)
    (GN : ∀ n ∈ tags, goodTagName n = true)
    (X : Str) (hX : X ∈ tags) (w delta all : Str) (hw : '<' ∉ w)
    (hs : pyStrip (all ++ delta) = mkOpenTag X ++ w) :
    judge_delta_content_type delta all tags =
      if w = [] then "tag".toList else X := by
  have hgX := GN X hX
  simp only [judge_delta_content_type, hs,
    findLastTag_open_shape tags GN X hX w hw]
  rw [if_pos (List.mem_map_of_mem mkOpenTag hX)]
  cases w with
  | nil =>
    rw [if_pos (by simp)]
    rw [if_pos rfl]
  | cons c w' =>
    rw [if_neg (by simp)]
    rw [if_neg (by simp : ¬(c :: w' = []))]
    have hany := no_close_pfx_suffix tags GN X hgX (c :: w') hw (by simp)
    rw [hany]
    simp only [Bool.false_eq_true, if_false]
    exact stripAngles_open X hgX

theorem judge_no_gt (tags : List Str) (delta all : Str)
    (h : '>' ∉ pyStrip (all ++ delta)) :
    judge_delta_content_type delta all tags = "tag".toList := by
  have hnone : findLastTag (tags.map mkOpenTag ++ tags.map mkCloseTag)
      (pyStrip (all ++ delta)) = none := by
    apply findLastTag_none
    intro t ht
    rcases List.mem_append.mp ht with h1 | h1
    · obtain ⟨Y, hY, rfl⟩ := List.mem_map.mp h1
      exact pyRfind_none_of_mem _ _ '>' (gt_mem_mkOpenTag Y) h
    · obtain ⟨Y, hY, rfl⟩ := List.mem_map.mp h1
      exact pyRfind_none_of_mem _ _ '>' (gt_mem_mkCloseTag Y) h
  simp only [judge_delta_content_type, hnone]

theorem filter_range_only (p : Nat → Bool) (m n : Nat) (hmn : m ≤ n) (hm1 : p m = true)
    (h : ∀ i, i ≠ m → i ≤ n → p i = false) :
    (List.range (n + 1)).filter p = [m] := by
  induction n with
  | zero =>
    have hm0 : m = 0 := by omega
    subst hm0
    simp [List.range_succ, List.range_zero, hm1]
  | succ k ih =>
    rw [List.range_succ, List.filter_append]
    by_cases hk : m = k + 1
    · subst hk
      have hnil : (List.range (k + 1)).filter p = [] :=
        List.filter_eq_nil_iff.mpr (fun a ha => by
          rw [List.mem_range] at ha
          simp [h a (by omega) (by omega)])
      rw [hnil]
      simp [hm1]
    · have hmk : m ≤ k := by omega
      rw [ih hmk (fun i hi hile => h i hi (by omega))]
      have hfalse : p (k + 1) = false := h (k + 1) (by omega) (by omega)
      simp [hfalse]

theorem pyRfind_only (t s : Str) (m : Nat) (hmn : m ≤ s.length)
    (hm1 : occursAt t s m = true)
    (h : ∀ i, i ≠ m → occursAt t s i = false) : pyRfind t s = some m := by
  unfold pyRfind
  rw [filter_range_only _ m s.length hmn hm1 (fun i hi _ => h i hi)]
  rfl

theorem lt_index_double (d1 d2 : Str) (i : Nat) (h1 : '<' ∉ d1) (h2 : '<' ∉ d2)
    (h : (('<' :: d1) ++ '<' :: d2)[i]? = some '<') : i = 0 ∨ i = d1.length + 1 := by
  cases i with
  | zero => exact Or.inl rfl
  | succ k =>
    rw [List.cons_append, List.getElem?_cons_succ] at h
    rcases Nat.lt_trichotomy k d1.length with hlt | heq | hgt
    · rw [List.getElem?_append_left hlt] at h
      exact absurd (List.getElem?_mem h) h1
    · exact Or.inr (by omega)
    · rw [List.getElem?_append_right (by omega)] at h
      have hk : k - d1.length = (k - d1.length - 1) + 1 := by omega
      rw [hk, List.getElem?_cons_succ] at h
      exact absurd (List.getElem?_mem h) h2

theorem occ_cases (D1 D2 : Str) (h1 : '<' ∉ D1) (h2 : '<' ∉ D2) (t : Str) (t2 : Str)
    (ht : t = '<' :: t2) (i : Nat)
    (hocc : occursAt t (('<' :: D1) ++ '<' :: D2) i = true) :
    i = 0 ∨ i = D1.length + 1 :=
  lt_index_double D1 D2 i h1 h2 (occursAt_getElem t _ i '<' t2 ht hocc)

theorem occ_at_second (D1 D2 : Str) (t : Str) (i : Nat) (hi : i = D1.length + 1)
    (hocc : occursAt t (('<' :: D1) ++ '<' :: D2) i = true) : t <+: '<' :: D2 := by
  unfold occursAt at hocc
  rw [hi] at hocc
  have hdrop : (('<' :: D1) ++ '<' :: D2).drop (D1.length + 1) = '<' :: D2 := by
    have := List.drop_left ('<' :: D1) ('<' :: D2)
    simpa using this
  rw [hdrop] at hocc
  exact List.isPrefixOf_iff_prefix.mp hocc

theorem findLastTag_unknown_shape (tags : List Str)
    (GN : ∀ n ∈ tags, goodTagName n = true)
    (X : Str) (hX : X ∈ tags) (Y0 : Str) (hY0 : Y0 ∈ tags) (v : Str) (hv : '<' ∉ v)
    (j : Nat) (hj : j + 1 < (mkCloseTag Y0).length) :
    findLastTag (tags.map mkOpenTag ++ tags.map mkCloseTag)
      (mkOpenTag X ++ v ++ (mkCloseTag Y0).take (j + 1)) = some (mkOpenTag X, 0) := by
  have hgX := GN X hX
  have hgY0 := GN Y0 hY0
  have hpcons : (mkCloseTag Y0).take (j + 1) = '<' :: List.take j ('/' :: (Y0 ++ ['>'])) := rfl
  have hd2 : '<' ∉ List.take j ('/' :: (Y0 ++ ['>'])) := by
    intro hc
    have hm := List.mem_of_mem_take hc
    rcases List.mem_cons.mp hm with h | h
    · exact absurd h (by decide)
    · rcases List.mem_append.mp h with h | h
      · exact good_not_mem_lt Y0 hgY0 h
      · simp at h
  have hd1 : '<' ∉ (X ++ ['>']) ++ v := lt_not_mem_body X v hgX hv
  have hshape : mkOpenTag X ++ v ++ (mkCloseTag Y0).take (j + 1) =
      ('<' :: ((X ++ ['>']) ++ v)) ++ '<' :: List.take j ('/' :: (Y0 ++ ['>'])) := by
    rw [hpcons]
    simp [mkOpenTag, List.append_assoc]
  have htp : (mkCloseTag Y0).take (j + 1) <+: mkCloseTag Y0 := List.take_prefix _ _
  have hlenp : ((mkCloseTag Y0).take (j + 1)).length = j + 1 := by
    rw [List.length_take]
    omega
  have hocc_cases : ∀ t t2, t = '<' :: t2 → ∀ i,
      occursAt t (mkOpenTag X ++ v ++ (mkCloseTag Y0).take (j + 1)) i = true →
      i = 0 ∨ i = ((X ++ ['>']) ++ v).length + 1 := by
    intro t t2 ht i hocc
    rw [hshape] at hocc
    exact occ_cases _ _ hd1 hd2 t t2 ht i hocc
  have hsecond : ∀ t, (t ∈ tags.map mkOpenTag ∨ t ∈ tags.map mkCloseTag) →
      occursAt t (mkOpenTag X ++ v ++ (mkCloseTag Y0).take (j + 1))
        (((X ++ ['>']) ++ v).length + 1) = false := by
    intro t hmem
    rw [Bool.eq_false_iff]
    intro hocc
    rw [hshape] at hocc
    have hpre : t <+: '<' :: List.take j ('/' :: (Y0 ++ ['>'])) := occ_at_second _ _ t _ rfl hocc
    rw [← hpcons] at hpre
    have hpre2 : t <+: mkCloseTag Y0 := hpre.trans htp
    rcases hmem with h | h
    · obtain ⟨Y, hY, rfl⟩ := List.mem_map.mp h
      exact open_not_prefix_close Y Y0 (GN Y hY) hpre2
    · obtain ⟨Y, hY, rfl⟩ := List.mem_map.mp h
      have hYY0 := close_prefix_close Y Y0 (GN Y hY) hgY0 hpre2
      have hle : (mkCloseTag Y).length ≤ j + 1 := by
        have h2 := hpre.length_le
        rwa [hlenp] at h2
      rw [hYY0] at hle
      omega
  have hocc0 : occursAt (mkOpenTag X)
      (mkOpenTag X ++ v ++ (mkCloseTag Y0).take (j + 1)) 0 = true := by
    rw [occursAt_zero_iff, List.append_assoc]
    exact List.prefix_append _ _
  have hrfO : ∀ Y ∈ tags, pyRfind (mkOpenTag Y)
      (mkOpenTag X ++ v ++ (mkCloseTag Y0).take (j + 1)) =
        if Y = X then some 0 else none := by
    intro Y hY
    by_cases hYX : Y = X
    · rw [if_pos hYX, hYX]
      apply pyRfind_single
      · exact hocc0
      · intro i hi
        rw [Bool.eq_false_iff]
        intro hocc
        rcases hocc_cases _ _ rfl i hocc with h | h
        · exact hi h
        · have hf := hsecond (mkOpenTag X) (Or.inl (List.mem_map_of_mem mkOpenTag hX))
          rw [h] at hocc
          rw [hf] at hocc
          exact Bool.false_ne_true hocc
    · rw [if_neg hYX]
      apply pyRfind_eq_none
      intro i
      rw [Bool.eq_false_iff]
      intro hocc
      rcases hocc_cases _ _ rfl i hocc with h | h
      · rw [h, occursAt_zero_iff, List.append_assoc] at hocc
        exact hYX (open_prefix_open Y X _ (GN Y hY) hgX hocc)
      · have hf := hsecond (mkOpenTag Y) (Or.inl (List.mem_map_of_mem mkOpenTag hY))
        rw [h] at hocc
        rw [hf] at hocc
        exact Bool.false_ne_true hocc
  have hrfC : ∀ Y ∈ tags, pyRfind (mkCloseTag Y)
      (mkOpenTag X ++ v ++ (mkCloseTag Y0).take (j + 1)) = none := by
    intro Y hY
    apply pyRfind_eq_none
    intro i
    rw [Bool.eq_false_iff]
    intro hocc
    rcases hocc_cases _ _ rfl i hocc with h | h
    · rw [h, occursAt_zero_iff, List.append_assoc] at hocc
      exact close_not_prefix_open Y X _ hgX hocc
    · have hf := hsecond (mkCloseTag Y) (Or.inr (List.mem_map_of_mem mkCloseTag hY))
      rw [h] at hocc
      rw [hf] at hocc
      exact Bool.false_ne_true hocc
  apply findLastTag_max
  · exact List.mem_append_left _ (List.mem_map_of_mem mkOpenTag hX)
  · have := hrfO X hX
    rwa [if_pos rfl] at this
  · intro t ht i hr
    rcases List.mem_append.mp ht with hto | htc
    · obtain ⟨Y, hY, rfl⟩ := List.mem_map.mp hto
      have := hrfO Y hY
      by_cases hYX : Y = X
      · rw [if_pos hYX] at this
        rw [this] at hr
        obtain hi := Option.some.inj hr
        exact ⟨by omega, fun _ => by rw [hYX]⟩
      · rw [if_neg hYX] at this
        rw [this] at hr
        exact Option.noConfusion hr
    · obtain ⟨Y, hY, rfl⟩ := List.mem_map.mp htc
      have := hrfC Y hY
      rw [this] at hr
      exact Option.noConfusion hr

theorem judge_unknown_case (tags : List Str) (GN : ∀ n ∈ tags, goodTagName n = true)
    (X Y0 : Str) (hX : X ∈ tags) (hY0 : Y0 ∈ tags) (v delta all : Str) (hv : '<' ∉ v)
    (j : Nat) (hj : j + 1 < (mkCloseTag Y0).length)
    (hs : pyStrip (all ++ delta) = mkOpenTag X ++ v ++ (mkCloseTag Y0).take (j + 1)) :
    judge_delta_content_type delta all tags = "unknown".toList := by
  have hlp : ((mkCloseTag Y0).take (j + 1)).length = j + 1 := by
    rw [List.length_take]
    omega
  have hne : ¬(0 + (mkOpenTag X).length =
      (mkOpenTag X ++ v ++ (mkCloseTag Y0).take (j + 1)).length) := by
    simp only [List.length_append, hlp, Nat.zero_add]
    omega
  have hany : ((tags.map mkCloseTag).flatMap nonemptyPfxs).any
      (fun p => p.isSuffixOf (mkOpenTag X ++ v ++ (mkCloseTag Y0).take (j + 1))) = true := by
    rw [List.any_eq_true]
    refine ⟨(mkCloseTag Y0).take (j + 1), ?_, ?_⟩
    · rw [List.mem_flatMap]
      refine ⟨mkCloseTag Y0, List.mem_map_of_mem mkCloseTag hY0, ?_⟩
      unfold nonemptyPfxs
      exact List.mem_map.mpr ⟨j, List.mem_range.mpr (by omega), rfl⟩
    · rw [List.isSuffixOf_iff_suffix]
      exact ⟨mkOpenTag X ++ v, rfl⟩
  simp only [judge_delta_content_type, hs,
    findLastTag_unknown_shape tags GN X hX Y0 hY0 v hv j hj]
  rw [if_pos (List.mem_map_of_mem mkOpenTag hX)]
  rw [if_neg hne]
  rw [hany]
  rfl

theorem findLastTag_close_shape (tags : List Str)
    (GN : ∀ n ∈ tags, goodTagName n = true)
    (X : Str) (hX : X ∈ tags) (inner : Str) (hinner : '<' ∉ inner) :
    findLastTag (tags.map mkOpenTag ++ tags.map mkCloseTag)
      (mkOpenTag X ++ inner ++ mkCloseTag X) =
        some (mkCloseTag X, ((X ++ ['>']) ++ inner).length + 1) := by
  have hgX := GN X hX
  have hd1 : '<' ∉ (X ++ ['>']) ++ inner := lt_not_mem_body X inner hgX hinner
  have hd2 : '<' ∉ '/' :: (X ++ ['>']) := by
    intro hc
    rcases List.mem_cons.mp hc with h | h
    · exact absurd h (by decide)
    · rcases List.mem_append.mp h with h | h
      · exact good_not_mem_lt X hgX h
      · simp at h
  have hshape : mkOpenTag X ++ inner ++ mkCloseTag X =
      ('<' :: ((X ++ ['>']) ++ inner)) ++ '<' :: '/' :: (X ++ ['>']) := by
    simp [mkOpenTag, mkCloseTag, List.append_assoc]
  have hocc_cases : ∀ t t2, t = '<' :: t2 → ∀ i,
      occursAt t (mkOpenTag X ++ inner ++ mkCloseTag X) i = true →
      i = 0 ∨ i = ((X ++ ['>']) ++ inner).length + 1 := by
    intro t t2 ht i hocc
    rw [hshape] at hocc
    exact occ_cases _ _ hd1 hd2 t t2 ht i hocc
  have hsecond_pre : ∀ t, occursAt t (mkOpenTag X ++ inner ++ mkCloseTag X)
      (((X ++ ['>']) ++ inner).length + 1) = true → t <+: mkCloseTag X := by
    intro t hocc
    rw [hshape] at hocc
    have hpre : t <+: '<' :: '/' :: (X ++ ['>']) := occ_at_second _ _ t _ rfl hocc
    exact hpre
  have hoccm : occursAt (mkCloseTag X) (mkOpenTag X ++ inner ++ mkCloseTag X)
      (((X ++ ['>']) ++ inner).length + 1) = true := by
    unfold occursAt
    rw [hshape]
    have hdrop : ((('<' :: ((X ++ ['>']) ++ inner)) ++ '<' :: '/' :: (X ++ ['>']))).drop
        (((X ++ ['>']) ++ inner).length + 1) = '<' :: '/' :: (X ++ ['>']) := by
      have := List.drop_left ('<' :: ((X ++ ['>']) ++ inner)) ('<' :: '/' :: (X ++ ['>']))
      simpa using this
    rw [hdrop]
    exact List.isPrefixOf_iff_prefix.mpr (List.prefix_refl _)
  have hrfO : ∀ Y ∈ tags, pyRfind (mkOpenTag Y)
      (mkOpenTag X ++ inner ++ mkCloseTag X) = if Y = X then some 0 else none := by
    intro Y hY
    by_cases hYX : Y = X
    · rw [if_pos hYX, hYX]
      apply pyRfind_single
      · rw [occursAt_zero_iff, List.append_assoc]
        exact List.prefix_append _ _
      · intro i hi
        rw [Bool.eq_false_iff]
        intro hocc
        rcases hocc_cases _ _ rfl i hocc with h | h
        · exact hi h
        · rw [h] at hocc
          exact open_not_prefix_close X X hgX (hsecond_pre _ hocc)
    · rw [if_neg hYX]
      apply pyRfind_eq_none
      intro i
      rw [Bool.eq_false_iff]
      intro hocc
      rcases hocc_cases _ _ rfl i hocc with h | h
      · rw [h, occursAt_zero_iff, List.append_assoc] at hocc
        exact hYX (open_prefix_open Y X _ (GN Y hY) hgX hocc)
      · rw [h] at hocc
        exact open_not_prefix_close Y X (GN Y hY) (hsecond_pre _ hocc)
  have hrfC : ∀ Y ∈ tags, pyRfind (mkCloseTag Y)
      (mkOpenTag X ++ inner ++ mkCloseTag X) =
        if Y = X then some (((X ++ ['>']) ++ inner).length + 1) else none := by
    intro Y hY
    by_cases hYX : Y = X
    · rw [if_pos hYX, hYX]
      apply pyRfind_only
      · have hlen : (mkOpenTag X ++ inner ++ mkCloseTag X).length =
            (((X ++ ['>']) ++ inner).length + 1) + (mkCloseTag X).length := by
          simp [mkOpenTag, mkCloseTag]
          omega
        omega
      · exact hoccm
      · intro i hi
        rw [Bool.eq_false_iff]
        intro hocc
        rcases hocc_cases _ _ rfl i hocc with h | h
        · rw [h, occursAt_zero_iff, List.append_assoc] at hocc
          exact close_not_prefix_open X X _ hgX hocc
        · exact hi h
    · rw [if_neg hYX]
      apply pyRfind_eq_none
      intro i
      rw [Bool.eq_false_iff]
      intro hocc
      rcases hocc_cases _ _ rfl i hocc with h | h
      · rw [h, occursAt_zero_iff, List.append_assoc] at hocc
        exact close_not_prefix_open Y X _ hgX hocc
      · rw [h] at hocc
        exact hYX (close_prefix_close Y X (GN Y hY) hgX (hsecond_pre _ hocc))
  apply findLastTag_max
  · exact List.mem_append_right _ (List.mem_map_of_mem mkCloseTag hX)
  · have := hrfC X hX
    rwa [if_pos rfl] at this
  · intro t ht i hr
    rcases List.mem_append.mp ht with hto | htc
    · obtain ⟨Y, hY, rfl⟩ := List.mem_map.mp hto
      have := hrfO Y hY
      by_cases hYX : Y = X
      · rw [if_pos hYX] at this
        rw [this] at hr
        obtain hi := Option.some.inj hr
        refine ⟨by omega, fun hc => absurd (hi.trans hc) (by omega)⟩
      · rw [if_neg hYX] at this
        rw [this] at hr
        exact Option.noConfusion hr
    · obtain ⟨Y, hY, rfl⟩ := List.mem_map.mp htc
      have := hrfC Y hY
      by_cases hYX : Y = X
      · rw [if_pos hYX] at this
        rw [this] at hr
        obtain hi := Option.some.inj hr
        exact ⟨by omega, fun _ => by rw [hYX]⟩
      · rw [if_neg hYX] at this
        rw [this] at hr
        exact Option.noConfusion hr

theorem judge_after_close (tags : List Str) (GN : ∀ n ∈ tags, goodTagName n = true)
    (X : Str) (hX : X ∈ tags) (inner delta all : Str) (hinner : '<' ∉ inner)
    (hs : pyStrip (all ++ delta) = mkOpenTag X ++ inner ++ mkCloseTag X) :
    judge_delta_content_type delta all tags = "tag".toList := by
  have hnotin : mkCloseTag X ∉ tags.map mkOpenTag := by
    intro hmem
    obtain ⟨Y, hY, hEq⟩ := List.mem_map.mp hmem
    exact open_ne_close Y X (GN Y hY) hEq
  simp only [judge_delta_content_type, hs,
    findLastTag_close_shape tags GN X hX inner hinner]
  rw [if_neg hnotin]

theorem classifyCharsFrom_append (tags : List Str) (a : Str) :
    ∀ (u b : Str), classifyCharsFrom tags u (a ++ b) =
      classifyCharsFrom tags u a ++ classifyCharsFrom tags (u ++ a) b := by
  induction a with
  | nil =>
    intro u b
    simp [classifyCharsFrom]
  | cons c cs ih =>
    intro u b
    simp only [List.cons_append, classifyCharsFrom, List.append_eq]
    rw [ih (u ++ [c]) b]
    simp [List.append_assoc]

theorem stripRight_all_nonspace (l : Str) (h : ∀ c ∈ l, isPySpace c = false) :
    stripRight l = l := by
  unfold stripRight
  cases hrev : l.reverse with
  | nil =>
    rw [List.reverse_eq_nil_iff.mp hrev]
    rfl
  | cons c r =>
    have hc : c ∈ l := by
      rw [← List.mem_reverse, hrev]
      simp
    rw [List.dropWhile_cons, h c hc]
    simp [← hrev]

theorem close_chars_nonspace (Y : Str) (hg : goodTagName Y = true) :
    ∀ c ∈ mkCloseTag Y, isPySpace c = false := by
  intro c hc
  unfold mkCloseTag at hc
  rcases List.mem_cons.mp hc with h | h
  · rw [h]
    decide
  · rcases List.mem_cons.mp h with h2 | h2
    · rw [h2]
      decide
    · rcases List.mem_append.mp h2 with h3 | h3
      · exact (goodTagChar_spec c (goodTagName_chars Y hg c h3)).2.2.2
      · simp at h3
        rw [h3]
        decide

theorem filterMap_head_none (f : Char × Str → Option Char) (a : Char × Str)
    (l : List (Char × Str)) (h : f a = none) : (a :: l).filterMap f = l.filterMap f := by
  simp [List.filterMap_cons, h]

theorem filterMap_head_some (f : Char × Str → Option Char) (a : Char × Str)
    (l : List (Char × Str)) (b : Char) (h : f a = some b) :
    (a :: l).filterMap f = b :: l.filterMap f := by
  simp [List.filterMap_cons, h]

theorem classify_open_all_tag (tags : List Str) (GN : ∀ n ∈ tags, goodTagName n = true)
    (X : Str) (hX : X ∈ tags) :
    ∀ (z q : Str), q ++ z = mkOpenTag X →
      ∀ p ∈ classifyCharsFrom tags q z, p.2 = "tag".toList := by
  have hgX := GN X hX
  intro z
  induction z with
  | nil =>
    intro q hq p hp
    simp [classifyCharsFrom] at hp
  | cons c z' ih =>
    intro q hq p hp
    simp only [classifyCharsFrom] at hp
    rcases List.mem_cons.mp hp with hp | hp
    · rw [hp]
      show judge_delta_content_type [c] q tags = "tag".toList
      cases z' with
      | nil =>
        have hq2 : q ++ [c] = mkOpenTag X := by simpa using hq
        have hps : pyStrip (q ++ [c]) = mkOpenTag X ++ [] := by
          rw [hq2]
          have h2 := pyStrip_open_append X []
          rw [List.append_nil] at h2
          exact h2
        have hres := judge_in_field tags GN X hX [] [c] q (by simp) hps
        simpa using hres
      | cons c2 z'' =>
        apply judge_no_gt
        intro hmem
        have h1 := pyStrip_mem _ '>' hmem
        have hpre : (q ++ [c]) <+: (('<' :: X) ++ ['>']) := by
          refine ⟨c2 :: z'', ?_⟩
          rw [List.append_assoc]
          simpa [mkOpenTag] using hq
        have hlenq := congrArg List.length hq
        simp [mkOpenTag] at hlenq
        have hlen : (q ++ [c]).length ≤ ('<' :: X).length := by
          simp
          omega
        have htake := List.prefix_iff_eq_take.mp hpre
        rw [List.take_append_of_le_length hlen] at htake
        rw [htake] at h1
        have h2 := List.mem_of_mem_take h1
        rcases List.mem_cons.mp h2 with h3 | h3
        · exact absurd h3 (by decide)
        · exact good_not_mem_gt X hgX h3
    · exact ih (q ++ [c]) (by simpa [List.append_assoc] using hq) p hp

theorem classify_inner_collect (tags : List Str) (GN : ∀ n ∈ tags, goodTagName n = true)
    (X : Str) (hX : X ∈ tags) (hXtag : X ≠ "tag".toList) :
    ∀ (z v : Str), '<' ∉ v → '<' ∉ z →
      (classifyCharsFrom tags (mkOpenTag X ++ v) z).filterMap
          (fun p => if p.2 = X then some p.1 else none) =
        if stripRight v = [] then z.dropWhile isPySpace else z := by
  intro z
  induction z with
  | nil =>
    intro v hv hz
    simp [classifyCharsFrom]
  | cons c z' ih =>
    intro v hv hz
    have hc_ne : c ≠ '<' := fun h => hz (by rw [h]; exact List.mem_cons_self _ _)
    have hz' : '<' ∉ z' := fun h => hz (List.mem_cons_of_mem _ h)
    have hvc : '<' ∉ v ++ [c] := by
      intro h
      rcases List.mem_append.mp h with h1 | h1
      · exact hv h1
      · simp at h1
        exact hc_ne h1.symm
    have hw : '<' ∉ stripRight (v ++ [c]) := fun h => hvc (stripRight_mem _ _ h)
    have hps : pyStrip ((mkOpenTag X ++ v) ++ [c]) = mkOpenTag X ++ stripRight (v ++ [c]) := by
      rw [List.append_assoc, pyStrip_open_append]
    have hjudge := judge_in_field tags GN X hX (stripRight (v ++ [c])) [c]
      (mkOpenTag X ++ v) hw hps
    simp only [classifyCharsFrom]
    by_cases hnil : stripRight (v ++ [c]) = []
    · rw [if_pos hnil] at hjudge
      have hvsp := (stripRight_eq_nil_iff _).mp hnil
      have hvnil : stripRight v = [] :=
        (stripRight_eq_nil_iff _).mpr (fun d hd => hvsp d (List.mem_append_left _ hd))
      have hcsp : isPySpace c = true := hvsp c (List.mem_append_right _ (by simp))
      rw [hjudge]
      rw [filterMap_head_none _ _ _ (by rw [if_neg (Ne.symm hXtag)])]
      rw [List.append_assoc]
      rw [ih (v ++ [c]) hvc hz']
      rw [if_pos hnil, if_pos hvnil, List.dropWhile_cons, hcsp]
      simp
    · rw [if_neg hnil] at hjudge
      rw [hjudge]
      rw [filterMap_head_some _ _ _ c (by rw [if_pos rfl])]
      rw [List.append_assoc]
      rw [ih (v ++ [c]) hvc hz']
      rw [if_neg hnil]
      by_cases hvnil : stripRight v = []
      · have hcns : isPySpace c = false := by
          by_contra h
          rw [Bool.not_eq_false] at h
          exact hnil ((stripRight_eq_nil_iff _).mpr (fun d hd => by
            rcases List.mem_append.mp hd with h1 | h1
            · exact (stripRight_eq_nil_iff _).mp hvnil d h1
            · simp at h1
              rw [h1]
              exact h))
        rw [if_pos hvnil, List.dropWhile_cons, hcns]
        simp
      · rw [if_neg hvnil]

theorem classify_close_aux (tags : List Str) (GN : ∀ n ∈ tags, goodTagName n = true)
    (X : Str) (hX : X ∈ tags) (hXtag : X ≠ "tag".toList) (hXunk : X ≠ "unknown".toList)
    (inner : Str) (hinner : '<' ∉ inner) :
    ∀ (z q : Str), q ++ z = mkCloseTag X →
      ∀ p ∈ classifyCharsFrom tags (mkOpenTag X ++ inner ++ q) z, p.2 ≠ X := by
  have hgX := GN X hX
  intro z
  induction z with
  | nil =>
    intro q hq p hp
    simp [classifyCharsFrom] at hp
  | cons c z' ih =>
    intro q hq p hp
    have hcmem : c ∈ mkCloseTag X := by
      rw [← hq]
      exact List.mem_append_right _ (List.mem_cons_self _ _)
    have hcns : isPySpace c = false := close_chars_nonspace X hgX c hcmem
    have hps : pyStrip ((mkOpenTag X ++ inner ++ q) ++ [c]) =
        mkOpenTag X ++ inner ++ (q ++ [c]) := by
      have h1 : (mkOpenTag X ++ inner ++ q) ++ [c] =
          mkOpenTag X ++ (inner ++ (q ++ [c])) := by
        simp [List.append_assoc]
      rw [h1, pyStrip_open_append, stripRight_append, stripRight_last_nonspace q c hcns]
      rw [if_neg (by simp)]
      simp [List.append_assoc]
    simp only [classifyCharsFrom] at hp
    rcases List.mem_cons.mp hp with hp | hp
    · rw [hp]
      show judge_delta_content_type [c] (mkOpenTag X ++ inner ++ q) tags ≠ X
      cases z' with
      | nil =>
        have hq2 : q ++ [c] = mkCloseTag X := by simpa using hq
        rw [hq2] at hps
        have hj := judge_after_close tags GN X hX inner [c]
          (mkOpenTag X ++ inner ++ q) hinner hps
        rw [hj]
        exact Ne.symm hXtag
      | cons c2 z'' =>
        have hpre : (q ++ [c]) <+: mkCloseTag X := by
          refine ⟨c2 :: z'', ?_⟩
          rw [List.append_assoc]
          simpa using hq
        have hlen1 : (q ++ [c]).length = q.length + 1 := by simp
        have htake := List.prefix_iff_eq_take.mp hpre
        rw [hlen1] at htake
        have hlenq := congrArg List.length hq
        simp [mkCloseTag] at hlenq
        have hlt : q.length + 1 < (mkCloseTag X).length := by
          simp [mkCloseTag]
          omega
        rw [htake] at hps
        have hj := judge_unknown_case tags GN X X hX hX inner [c]
          (mkOpenTag X ++ inner ++ q) hinner q.length hlt hps
        rw [hj]
        exact Ne.symm hXunk
    · rw [show (mkOpenTag X ++ inner ++ q) ++ [c] = mkOpenTag X ++ inner ++ (q ++ [c]) by
        simp [List.append_assoc]] at hp
      exact ih (q ++ [c]) (by simpa [List.append_assoc] using hq) p hp

theorem filterMap_none_of_all (f : Char × Str → Option Char) (l : List (Char × Str))
    (h : ∀ a ∈ l, f a = none) : l.filterMap f = [] := by
  induction l with
  | nil => rfl
  | cons a t ih =>
    rw [filterMap_head_none _ _ _ (h a (List.mem_cons_self _ _))]
    exact ih (fun b hb => h b (List.mem_cons_of_mem _ hb))

/-- C4 (amended): the per-character classifier returns `unknown` exactly in
the pending closing-delimiter situation — when the stripped accumulated
text is an opening delimiter followed by field content (free of `<`)
followed by a nonempty proper prefix of a closing delimiter.  The pending
list is built from closing delimiters only, so a text ending in a prefix
of an opening delimiter alone is classified `tag`, not `unknown`. -/
theorem C4_pending_close_prefix_unknown (tags : List Str)
    (GN : ∀ n ∈ tags, goodTagName n = true) (X Y0 : Str) (hX : X ∈ tags) (hY0 : Y0 ∈ tags)
    (v delta all : Str) (hv : '<' ∉ v) (j : Nat) (hj : j + 1 < (mkCloseTag Y0).length)
    (hs : pyStrip (all ++ delta) = mkOpenTag X ++ v ++ (mkCloseTag Y0).take (j + 1)) :
    judge_delta_content_type delta all tags = "unknown".toList :=
  judge_unknown_case tags GN X Y0 hX hY0 v delta all hv j hj hs

set_option maxRecDepth 100000 in
/-- Witness for C4 at a concrete input: inside the `analysis` field, with
the pending closing-tag prefix `</a` already buffered, the next streamed
character `n` is classified `unknown`. -/
theorem C4_pending_close_prefix_unknown_witness :
    judge_delta_content_type "n".toList "<analysis>h</a".toList ["analysis".toList] =
      "unknown".toList :=
  C4_pending_close_prefix_unknown ["analysis".toList] (by decide)
    "analysis".toList "analysis".toList (by decide) (by decide)
    "h".toList "n".toList "<analysis>h</a".toList (by decide) 3 (by decide) (by decide)

set_option maxRecDepth 100000 in
/-- C4 counterexample: with the vocabulary `analysis` and `analysis_extra`,
the streamed text `<analysis_e` — which ends in a proper nonempty prefix of
the opening delimiter `<analysis_extra>` — is classified `tag`, not
`unknown` as the claim states (though indeed not `analysis` either). -/
theorem C4_counterexample_open_prefix_not_unknown :
    judge_delta_content_type "e".toList "<analysis_".toList
        ["analysis".toList, "analysis_extra".toList] = "tag".toList ∧
    "tag".toList ≠ "unknown".toList ∧ "tag".toList ≠ "analysis".toList := by
  refine ⟨by decide, by decide, by decide⟩

/-- C5 (amended): streaming a well-formed field block character by
character and collecting the characters classified as the field name
reproduces the inner text with only its leading whitespace removed —
trailing whitespace inside the block is classified as field content and
kept, while every delimiter character is suppressed. -/
theorem C5_round_trip_left_trim (tags : List Str)
    (GN : ∀ n ∈ tags, goodTagName n = true) (X inner : Str) (hX : X ∈ tags)
    (hXtag : X ≠ "tag".toList) (hXunk : X ≠ "unknown".toList) (hinner : '<' ∉ inner) :
    collectField tags (mkOpenTag X ++ inner ++ mkCloseTag X) X =
      inner.dropWhile isPySpace := by
  unfold collectField
  rw [List.append_assoc]
  rw [classifyCharsFrom_append tags (mkOpenTag X) [] (inner ++ mkCloseTag X)]
  rw [List.nil_append]
  rw [classifyCharsFrom_append tags inner (mkOpenTag X) (mkCloseTag X)]
  rw [List.filterMap_append, List.filterMap_append]
  have h1 : (classifyCharsFrom tags [] (mkOpenTag X)).filterMap
      (fun p => if p.2 = X then some p.1 else none) = [] := by
    apply filterMap_none_of_all
    intro a ha
    have htag := classify_open_all_tag tags GN X hX (mkOpenTag X) [] (by simp) a ha
    exact if_neg (fun hc => (Ne.symm hXtag) (htag.symm.trans hc))
  have h2 := classify_inner_collect tags GN X hX hXtag inner [] (by simp) hinner
  rw [List.append_nil] at h2
  rw [if_pos (show stripRight ([] : Str) = [] from rfl)] at h2
  have h3 : (classifyCharsFrom tags (mkOpenTag X ++ inner) (mkCloseTag X)).filterMap
      (fun p => if p.2 = X then some p.1 else none) = [] := by
    apply filterMap_none_of_all
    intro a ha
    have h4 := classify_close_aux tags GN X hX hXtag hXunk inner hinner
      (mkCloseTag X) [] (by simp)
    rw [List.append_nil] at h4
    exact if_neg (h4 a ha)
  rw [h1, h2, h3]
  simp

/-- Witness for C5 at a concrete block: collecting the `analysis`
characters of `<analysis> a </analysis>` yields the inner text ` a ` with
only its leading space removed. -/
theorem C5_round_trip_left_trim_witness :
    collectField ["analysis".toList]
        (mkOpenTag "analysis".toList ++ " a ".toList ++ mkCloseTag "analysis".toList)
        "analysis".toList = " a ".toList.dropWhile isPySpace :=
  C5_round_trip_left_trim ["analysis".toList] (by decide) "analysis".toList " a ".toList
    (by decide) (by decide) (by decide) (by decide)

set_option maxRecDepth 600000 in
/-- C5 counterexample: on the block `<analysis> a </analysis>` the
collected `analysis` characters are `a ` — the trailing space is kept —
and not the fully trimmed inner text, so the round-trip does not remove
the surrounding whitespace on the right as the claim states. -/
theorem C5_counterexample_trailing_space_kept :
    collectField ["analysis".toList] "<analysis> a </analysis>".toList "analysis".toList =
      "a ".toList ∧
    pyStrip " a ".toList ≠ "a ".toList := by
  refine ⟨by decide, by decide⟩

end STA
